import Mathlib

/-!
Resource-Transformation-Simulator: a shallow embedding

The C++ classes `Formula`, `Plan`, `ExecutablePlan` and `Stockpile` are embedded as
Lean structures with explicit state passing.

Conventions of the embedding

* A value of type `int` is held in an `Int`. The quantities of a `Stockpile` are 32-bit:
  every stored quantity lies between `INT_MIN` and `INT_MAX`, and the results of `+=` and
  `-=` on them are wrapped into that range (`wrapInt`; signed overflow is undefined in C++,
  the compiled code wraps). Counts, capacities and the cursor only move by one (or double)
  from small values and are handled as exact integers.
* A heap array is the list of its cells; the parallel arrays `inputNames` /
  `inputQuantities` (and the output pair) are one list of `(name, quantity)` cells whose
  length is `inputSize` (`outputSize`).
* `std::map<std::string, int>` is a partial map `String → Option Int`: `find(k) != end()`
  is `resources k ≠ none`, and `operator[]` creates the value `0` for a missing key.
* A member function that may throw returns an `Outcome`: the thrown error or the returned
  value, together with the state of the objects when control leaves the function.
* The random draw `dis(gen)` of `Formula::DetermineMultiplier` is an explicit argument
  `chance` of every function that draws; the generator and its state are not part of a
  `Formula` here.
* A `double` is held as the exact number it denotes, `m * 2 ^ e` (`Dbl`); every arithmetic
  operation on doubles is the exact operation followed by rounding to 53 significant bits,
  ties to even (`Dbl.round`), as the compiled code does on each single operation. All
  doubles that arise here are far from the exponent limits, which are not modelled.
-/

namespace RTS

set_option maxRecDepth 100000

/-- The exceptions thrown by the source, with their `what()` message. -/
inductive Error where
  | runtime_error (what : String)
  | out_of_range (what : String)
  | invalid_argument (what : String)
deriving DecidableEq, Repr

/-- Result of a member function that may throw: `result` is the error or the returned
value, `state` the state of the objects it works on when control leaves it. -/
structure Outcome (σ : Type) (α : Type) where
  result : Except Error α
  state : σ

/-- The call returned normally (no exception left the function). -/
def Outcome.succeeded {σ α : Type} (o : Outcome σ α) : Bool :=
  match o.result with
  | .ok _ => true
  | .error _ => false

/-! Machine integers -/

/-- The largest value of the 32-bit type `int`. -/
def INT_MAX : Int := 2147483647

/-- The smallest value of the 32-bit type `int`. -/
def INT_MIN : Int := -2147483648

/-- The integer `x` is a value of the type `int`. -/
def fitsInt (x : Int) : Prop := INT_MIN ≤ x ∧ x ≤ INT_MAX

instance (x : Int) : Decidable (fitsInt x) := inferInstanceAs (Decidable (_ ∧ _))

/-- The `int` that an addition or subtraction of two `int`s leaves when its exact result is
`x`: `x` itself when it fits, otherwise `x` reduced modulo 2^32 into the range of `int`. -/
def wrapInt (x : Int) : Int := (x - INT_MIN) % 4294967296 + INT_MIN

/-! Doubles -/

/-- Number of binary digits of `a` (0 for 0); `fuel` bounds the number of halvings and is
taken as `a` itself. -/
def bitLength : Nat → Nat → Nat
  | 0, _ => 0
  | fuel + 1, a => if a = 0 then 0 else bitLength fuel (a / 2) + 1

/-- A finite `double`, held as the exact number `m * 2 ^ e` it denotes. -/
structure Dbl where
  m : Int
  e : Int
deriving DecidableEq, Repr

namespace Dbl

/-- The double nearest to the exact number `n * 2 ^ e`: the number itself when `n` has at
most 53 binary digits, otherwise `n` cut to its 53 leading digits, rounded to nearest with
ties to the even neighbour. -/
def round (n : Int) (e : Int) : Dbl :=
  let a : Nat := n.natAbs
  let bits : Nat := bitLength a a
  if bits ≤ 53 then ⟨n, e⟩
  else
    let k : Nat := bits - 53
    let q : Nat := a / 2 ^ k
    let r : Nat := a % 2 ^ k
    let half : Nat := 2 ^ (k - 1)
    let q : Nat := if r > half ∨ (r = half ∧ q % 2 = 1) then q + 1 else q
    ⟨if n < 0 then - (q : Int) else (q : Int), e + k⟩

/-- Conversion of an `int` to `double`. -/
def ofInt (n : Int) : Dbl := round n 0

/-- The product `x * y` of two doubles. -/
def mul (x y : Dbl) : Dbl := round (x.m * y.m) (x.e + y.e)

/-- The difference `x - y` of two doubles. -/
def sub (x y : Dbl) : Dbl :=
  let e := min x.e y.e
  round (x.m * 2 ^ (x.e - e).toNat - y.m * 2 ^ (y.e - e).toNat) e

/-- The sum `x + y` of two doubles. -/
def add (x y : Dbl) : Dbl :=
  let e := min x.e y.e
  round (x.m * 2 ^ (x.e - e).toNat + y.m * 2 ^ (y.e - e).toNat) e

/-- The double with its fractional part dropped (truncation toward zero). -/
def trunc (x : Dbl) : Int :=
  if 0 ≤ x.e then x.m * 2 ^ x.e.toNat else Int.tdiv x.m (2 ^ (-x.e).toNat)

/-- `static_cast<int>(x)`: the truncated value when it is a value of `int`. Otherwise the
conversion is undefined in C++; the compiled code delivers `INT_MIN`. -/
def toInt (x : Dbl) : Int := if fitsInt x.trunc then x.trunc else INT_MIN

end Dbl

/-! Formula (formula.h, formula.cpp) -/

/-- The data members of `Formula` that carry the recipe: the input cells, the output cells
and the proficiency level. -/
structure Formula where
  inputs : List (String × Int)
  outputs : List (String × Int)
  proficiencyLevel : Int
deriving DecidableEq, Repr

namespace Formula

/-- `Formula::Formula()`: no inputs, no outputs, proficiency 0. -/
instance : Inhabited Formula := ⟨⟨[], [], 0⟩⟩

def inputSize (f : Formula) : Int := f.inputs.length

def outputSize (f : Formula) : Int := f.outputs.length

def InitialFailureRate : Dbl := ⟨5404319552844595, -54⟩
def InitialPartialOutputRate : Dbl := ⟨1, -2⟩
def InitialNormalOutputRate : Dbl := ⟨8106479329266893, -54⟩
def ProficiencyImpact : Dbl := ⟨3602879701896397, -56⟩
def ZeroOutputMultiplier : Dbl := ⟨0, 0⟩
def ReducedOutputMultiplier : Dbl := ⟨3, -2⟩
def StandardOutputMultiplier : Dbl := ⟨1, 0⟩
def EnhancedOutputMultiplier : Dbl := ⟨2476979795053773, -51⟩

/-- `static_cast<int>(quantity * multiplier)`: the `int` quantity is converted to `double`,
multiplied in double arithmetic and cast back. -/
def castInt (quantity : Int) (multiplier : Dbl) : Int :=
  Dbl.toInt (Dbl.mul (Dbl.ofInt quantity) multiplier)

/-- The parameterized constructor: rejects a negative input quantity, then a negative
output quantity; otherwise stores the cells and sets the proficiency level to 0. -/
def new (inputs outputs : List (String × Int)) : Except Error Formula :=
  if inputs.any (fun c => c.2 < 0) then
    .error (.invalid_argument "Negative value found in inputQuantities")
  else if outputs.any (fun c => c.2 < 0) then
    .error (.invalid_argument "Negative value found in outputQuantities")
  else .ok ⟨inputs, outputs, 0⟩

def GetInputName (f : Formula) (i : Int) : String :=
  if 0 ≤ i ∧ i < f.inputSize then (f.inputs.getD i.toNat default).1 else ""

def GetInputQuantity (f : Formula) (i : Int) : Int :=
  if 0 ≤ i ∧ i < f.inputSize then (f.inputs.getD i.toNat default).2 else 0

def GetInputSize (f : Formula) : Int := f.inputSize

def GetOutput (f : Formula) (index : Int) : Except Error String :=
  if index < 0 ∨ index ≥ f.outputSize then .error (.out_of_range "Index out of range")
  else .ok ((f.outputs.getD index.toNat default).1 ++ ": "
              ++ toString (f.outputs.getD index.toNat default).2)

/-- `Formula::DetermineMultiplier`, the draw `dis(gen)` being `chance`; the result is the
selected multiplier constant. The three rates are computed in double arithmetic and cast to
`int`, as in the source. -/
def DetermineMultiplier (f : Formula) (chance : Int) : Dbl :=
  let failureRate : Int :=
    Dbl.toInt (Dbl.sub (Dbl.mul InitialFailureRate (Dbl.ofInt 100))
      (Dbl.mul (Dbl.mul ProficiencyImpact (Dbl.ofInt f.proficiencyLevel)) (Dbl.ofInt 100)))
  let partialRate : Int :=
    Dbl.toInt (Dbl.sub (Dbl.mul InitialPartialOutputRate (Dbl.ofInt 100))
      (Dbl.mul (Dbl.mul ProficiencyImpact (Dbl.ofInt f.proficiencyLevel)) (Dbl.ofInt 100)))
  let normalRate : Int :=
    Dbl.toInt (Dbl.add (Dbl.mul InitialNormalOutputRate (Dbl.ofInt 100))
      (Dbl.mul (Dbl.mul ProficiencyImpact (Dbl.ofInt f.proficiencyLevel)) (Dbl.ofInt 100)))
  if chance < failureRate then ZeroOutputMultiplier
  else if chance < failureRate + partialRate then ReducedOutputMultiplier
  else if chance < failureRate + partialRate + normalRate then StandardOutputMultiplier
  else EnhancedOutputMultiplier

/-- `Formula::Apply`: one draw, then the loop over the output cells building the text. -/
def Apply (f : Formula) (chance : Int) : String :=
  let multiplier := f.DetermineMultiplier chance
  (List.range f.outputSize.toNat).foldl
    (fun (result : String) (i : Nat) =>
      let adjustedQuantity : Int := castInt (f.outputs.getD i default).2 multiplier
      let result := result ++ (toString adjustedQuantity ++ " " ++ (f.outputs.getD i default).1)
      if (i : Int) < f.outputSize - 1 then result ++ ", " else result)
    ""

/-- `Formula::operator==`. -/
def eq (f other : Formula) : Bool :=
  if f.inputSize ≠ other.inputSize ∨ f.outputSize ≠ other.outputSize
      ∨ f.proficiencyLevel ≠ other.proficiencyLevel then false
  else
    (List.range f.inputSize.toNat).all
        (fun i => ! (decide ((f.inputs.getD i default).1 ≠ (other.inputs.getD i default).1)
                      || decide ((f.inputs.getD i default).2 ≠ (other.inputs.getD i default).2)))
      && (List.range f.outputSize.toNat).all
        (fun i => ! (decide ((f.outputs.getD i default).1 ≠ (other.outputs.getD i default).1)
                      || decide ((f.outputs.getD i default).2 ≠ (other.outputs.getD i default).2)))

end Formula

/-! Stockpile (stockpile.h, stockpile.cpp) -/

/-- The data members of `Stockpile`: `resources` is the `std::map<std::string, int>`,
`applyResults` the log; `fits` records that the mapped values are of type `int`. -/
structure Stockpile where
  resources : String → Option Int
  applyResults : List String
  fits : ∀ k q, resources k = some q → fitsInt q

namespace Stockpile

/-- `Stockpile::Stockpile()`: no resource, empty log. -/
def new : Stockpile := ⟨fun _ => none, [], fun _ _ h => nomatch h⟩

/-- `resources[name] += quantity`; `operator[]` value-initialises a missing key to 0. -/
def AddResource (s : Stockpile) (name : String) (quantity : Int) : Stockpile :=
  { s with
    resources := fun k =>
      if k = name then some (wrapInt ((s.resources name).getD 0 + quantity))
      else s.resources k
    fits := by
      intro k q h
      by_cases hk : k = name
      · simp only [hk, if_true, Option.some.injEq] at h
        subst h
        unfold fitsInt wrapInt INT_MIN INT_MAX
        omega
      · simp only [hk, if_false] at h
        exact s.fits k q h }

/-- `Stockpile::ConsumeResource`: the returned flag and the stockpile afterwards. -/
def ConsumeResource (s : Stockpile) (name : String) (quantity : Int) : Bool × Stockpile :=
  match s.resources name with
  | some q =>
    if q ≥ quantity then
      (true,
        { s with
          resources := fun k => if k = name then some (wrapInt (q - quantity)) else s.resources k
          fits := by
            intro k r h
            by_cases hk : k = name
            · simp only [hk, if_true, Option.some.injEq] at h
              subst h
              unfold fitsInt wrapInt INT_MIN INT_MAX
              omega
            · simp only [hk, if_false] at h
              exact s.fits k r h })
    else (false, s)
  | none => (false, s)

def GetQuantity (s : Stockpile) (name : String) : Int :=
  match s.resources name with
  | some q => q
  | none => 0

def StoreFormulaResult (s : Stockpile) (result : String) : Stockpile :=
  { s with applyResults := s.applyResults ++ [result] }

def GetApplyResults (s : Stockpile) : List String := s.applyResults

end Stockpile

/-! Plan (plan.h, plan.cpp) -/

/-- The data members of `Plan`: `formulas` is the allocated array (all its cells, also those
at and beyond `size`), `size` the number of formulas in the plan, `capacity` the recorded
length of the array. -/
structure Plan where
  formulas : List Formula
  size : Int
  capacity : Int

/-- Array read `a[i]`. Reading outside the allocation is undefined in the source; the
embedding yields a default-constructed `Formula` there. -/
def readAt (a : List Formula) (i : Int) : Formula :=
  if 0 ≤ i then a.getD i.toNat default else default

/-- Array write `a[i] = f`. Writing outside the allocation is undefined in the source; the
embedding leaves the array as it is there. -/
def writeAt (a : List Formula) (i : Int) (f : Formula) : List Formula :=
  if 0 ≤ i then a.set i.toNat f else a

namespace Plan

/-- `Plan::Plan(Formula*, int)`, the pointer and the size given as the list of the
`initialSize` formulas: `size = capacity = initialSize`, every formula copied. -/
def new (initialFormulas : List Formula) : Plan :=
  { formulas := initialFormulas, size := initialFormulas.length,
    capacity := initialFormulas.length }

/-- `Plan::ResizeIfNeeded`: a fresh array of default-constructed formulas of the new capacity
into which the first `size` formulas are moved. -/
def ResizeIfNeeded (p : Plan) : Plan :=
  let newCapacity : Int := if p.capacity = 0 then 1 else p.capacity * 2
  let newFormulas : List Formula :=
    (List.range p.size.toNat).foldl
      (fun (a : List Formula) (i : Nat) => writeAt a i (readAt p.formulas i))
      (List.replicate newCapacity.toNat default)
  { formulas := newFormulas, size := p.size, capacity := newCapacity }

def Add (p : Plan) (formula : Formula) : Plan :=
  let p := if p.size = p.capacity then p.ResizeIfNeeded else p
  { p with formulas := writeAt p.formulas p.size formula, size := p.size + 1 }

def Remove (p : Plan) : Plan :=
  if p.size > 0 then { p with size := p.size - 1 } else p

def Replace (p : Plan) (index : Int) (formula : Formula) : Outcome Plan Unit :=
  if index < 0 ∨ index ≥ p.size then
    ⟨.error (.out_of_range "Index out of range"), p⟩
  else ⟨.ok (), { p with formulas := writeAt p.formulas index formula }⟩

/-- `Plan::DisplayFormulas`; `chance i` is the draw of the `Apply` call on `formulas[i]`. -/
def DisplayFormulas (p : Plan) (chance : Nat → Int) : String :=
  if p.size = 0 then "No formula"
  else
    (List.range p.size.toNat).foldl
      (fun (output : String) (i : Nat) =>
        output ++ ("Formula " ++ toString (i + 1) ++ ": "
          ++ (readAt p.formulas i).Apply (chance i) ++ "\n"))
      ""

/-- `Plan::operator==`. -/
def eq (p other : Plan) : Bool :=
  if p.size ≠ other.size then false
  else (List.range p.size.toNat).all
    (fun i => (readAt p.formulas i).eq (readAt other.formulas i))

end Plan

/-- The class invariant of `Plan` on its data members: the count is between 0 and the
capacity, and the capacity is the length of the allocated array. -/
def Plan.WF (p : Plan) : Prop :=
  0 ≤ p.size ∧ p.size ≤ p.capacity ∧ (p.formulas.length : Int) = p.capacity

/-! ExecutablePlan (executablePlan.h, executablePlan.cpp) -/

/-- An `ExecutablePlan` is a `Plan` with the cursor `_currentStep`. -/
structure ExecutablePlan extends Plan where
  _currentStep : Int

namespace ExecutablePlan

/-- `ExecutablePlan::ExecutablePlan(Formula*, int)`: the base plan, cursor 0. -/
def new (initialFormulas : List Formula) : ExecutablePlan :=
  { toPlan := Plan.new initialFormulas, _currentStep := 0 }

def GetCurrentStep (p : ExecutablePlan) : Int := p._currentStep

/-- The inherited `Plan::Add`. -/
def Add (p : ExecutablePlan) (formula : Formula) : ExecutablePlan :=
  { p with toPlan := p.toPlan.Add formula }

def ApplyCurrentFormula (p : ExecutablePlan) (chance : Int) : Outcome ExecutablePlan String :=
  if p._currentStep ≥ p.size then
    ⟨.error (.runtime_error "No more formulas to apply."), p⟩
  else
    let result := (readAt p.formulas p._currentStep).Apply chance
    ⟨.ok result, { p with _currentStep := p._currentStep + 1 }⟩

def Replace (p : ExecutablePlan) (index : Int) (formula : Formula) : Outcome ExecutablePlan Unit :=
  if index < p._currentStep then
    ⟨.error (.runtime_error "Cannot replace a formula that has already been applied."), p⟩
  else
    let r := p.toPlan.Replace index formula
    ⟨r.result, { p with toPlan := r.state }⟩

def Remove (p : ExecutablePlan) : Outcome ExecutablePlan Unit :=
  if p._currentStep ≥ p.size then
    ⟨.error (.runtime_error
      "Cannot remove the last formula if it has already been completed."), p⟩
  else ⟨.ok (), { p with toPlan := p.toPlan.Remove }⟩

/-- The first loop of `ExecutablePlan::Apply`: the flag `resourcesAvailable` after it. The
loop leaves at the first input whose required quantity the stockpile does not hold. -/
def resourcesAvailable (currentFormula : Formula) (inputStockpile : Stockpile) : Bool :=
  (List.range currentFormula.GetInputSize.toNat).all
    (fun i =>
      let resourceName := currentFormula.GetInputName i
      let requiredQuantity := currentFormula.GetInputQuantity i
      ! decide (inputStockpile.GetQuantity resourceName < requiredQuantity))

/-- The second loop of `ExecutablePlan::Apply`: one `ConsumeResource` call per input, the
returned flag dropped. -/
def deductResources (currentFormula : Formula) (inputStockpile : Stockpile) : Stockpile :=
  (List.range currentFormula.GetInputSize.toNat).foldl
    (fun (s : Stockpile) (i : Nat) =>
      let resourceName := currentFormula.GetInputName i
      let requiredQuantity := currentFormula.GetInputQuantity i
      (s.ConsumeResource resourceName requiredQuantity).2)
    inputStockpile

/-- `ExecutablePlan::Apply`. The state is the plan and the stockpile the pointer refers to;
the returned value is that same stockpile. `chance` is the draw of the `Formula::Apply`
call. -/
def Apply (p : ExecutablePlan) (inputStockpile : Stockpile) (chance : Int) :
    Outcome (ExecutablePlan × Stockpile) Stockpile :=
  if p._currentStep ≥ p.size then
    ⟨.error (.runtime_error "No more formulas to apply."), (p, inputStockpile)⟩
  else
    let currentFormula := readAt p.formulas p._currentStep
    if ! resourcesAvailable currentFormula inputStockpile then
      ⟨.error (.runtime_error "Insufficient resources to apply formula."), (p, inputStockpile)⟩
    else
      let s := deductResources currentFormula inputStockpile
      let s := s.StoreFormulaResult (currentFormula.Apply chance)
      let p := { p with _currentStep := p._currentStep + 1 }
      ⟨.ok s, (p, s)⟩

/-- `ExecutablePlan::operator++` (prefix). -/
def incr (p : ExecutablePlan) : ExecutablePlan :=
  { p with _currentStep := p._currentStep + 1 }

/-- `ExecutablePlan::operator==`. -/
def eq (p other : ExecutablePlan) : Bool :=
  p.toPlan.eq other.toPlan && decide (p._currentStep = other._currentStep)

def gt (p other : ExecutablePlan) : Bool := decide (p._currentStep > other._currentStep)

def lt (p other : ExecutablePlan) : Bool := decide (p._currentStep < other._currentStep)

/-- `ExecutablePlan::operator<=`. -/
def le (p other : ExecutablePlan) : Bool := decide (p._currentStep < other._currentStep)

end ExecutablePlan

/-! Sequences of public operations on an executable plan -/

/-- One call of a public operation of `ExecutablePlan`, with its arguments (for `Apply` the
stockpile passed in and the draw). -/
inductive Op where
  | Add (formula : Formula)
  | Remove
  | Replace (index : Int) (formula : Formula)
  | Apply (inputStockpile : Stockpile) (chance : Int)
  | ApplyCurrentFormula (chance : Int)
  | incr

/-- The plan after one operation; a thrown exception is caught by the caller, the plan
stays as the operation left it. -/
def step (p : ExecutablePlan) : Op → ExecutablePlan
  | .Add formula => p.Add formula
  | .Remove => p.Remove.state
  | .Replace index formula => (p.Replace index formula).state
  | .Apply inputStockpile chance => (p.Apply inputStockpile chance).state.1
  | .ApplyCurrentFormula chance => (p.ApplyCurrentFormula chance).state
  | .incr => p.incr

/-- The plan after a sequence of operations, first to last. -/
def runOps (p : ExecutablePlan) (ops : List Op) : ExecutablePlan := ops.foldl step p

/-- Every prefix increment of the sequence is made on a plan that is not exhausted
(cursor below the count at the moment of the call). -/
def incrBeforeEnd : ExecutablePlan → List Op → Bool
  | _, [] => true
  | p, .incr :: ops => decide (p._currentStep < p.size) && incrBeforeEnd (step p .incr) ops
  | p, op :: ops => incrBeforeEnd (step p op) ops

/-! Sample data: the recipes and ledgers of simulator.cpp -/

/-- `Test_ExecutablePlan_ApplyCurrentFormula`, first recipe (a `std::map` is walked in key
order). -/
def glucoseFormula : Formula := ⟨[("Carbon", 1), ("Water", 2)], [("Glucose", 1)], 0⟩

/-- `Test_ExecutablePlan_ApplyCurrentFormula`, second recipe. -/
def oxygenFormula : Formula :=
  ⟨[("Glucose", 1), ("Sunlight", 1)], [("Energy", 1), ("Oxygen", 2)], 0⟩

/-- `Test_ExecutablePlan_ApplyCurrentFormula`: Water 2, Carbon 2, Sunlight 1. -/
def glucoseLedger : Stockpile :=
  ((Stockpile.new.AddResource "Water" 2).AddResource "Carbon" 2).AddResource "Sunlight" 1

/-- `Test_Formula_InsufficientResources`: the recipe needing Water 10 and Carbon 5. -/
def thirstyFormula : Formula := ⟨[("Carbon", 5), ("Water", 10)], [("Oxygen", 4)], 0⟩

/-- `Test_Formula_InsufficientResources`: Water 2, Carbon 5. -/
def thirstyLedger : Stockpile :=
  (Stockpile.new.AddResource "Water" 2).AddResource "Carbon" 5

/-- A recipe that lists the input name Water twice, 3 units each time. -/
def twiceWaterFormula : Formula := ⟨[("Water", 3), ("Water", 3)], [("Steam", 1)], 0⟩

/-- A ledger holding 4 units of Water. -/
def fourWaterLedger : Stockpile := Stockpile.new.AddResource "Water" 4

/-- A ledger holding Gold 2147483647, the largest `int`. -/
def brimLedger : Stockpile := Stockpile.new.AddResource "Gold" 2147483647

/-- A plan whose array has room for one more formula: two recipes, capacity 4. -/
def roomyPlan : Plan :=
  { formulas := [glucoseFormula, oxygenFormula, default, default], size := 2, capacity := 4 }

/-! Sequences of operations on a ledger -/

/-- One call that works on a `Stockpile`, with its arguments; for `ExecutablePlan::Apply`
the plan that is applied to the ledger and the draw. -/
inductive LedgerOp where
  | AddResource (name : String) (quantity : Int)
  | ConsumeResource (name : String) (quantity : Int)
  | StoreFormulaResult (result : String)
  | Apply (plan : ExecutablePlan) (chance : Int)

/-- The ledger after one call; a thrown exception is caught by the caller, the ledger stays
as the call left it. -/
def ledgerStep (s : Stockpile) : LedgerOp → Stockpile
  | .AddResource name quantity => s.AddResource name quantity
  | .ConsumeResource name quantity => (s.ConsumeResource name quantity).2
  | .StoreFormulaResult result => s.StoreFormulaResult result
  | .Apply plan chance => (plan.Apply s chance).state.2

/-- The ledger after a sequence of calls, first to last. -/
def runLedgerOps (s : Stockpile) (ops : List LedgerOp) : Stockpile := ops.foldl ledgerStep s

/-- Every `AddResource` call of the sequence has a quantity argument `>= 0`. -/
def addsNonneg : List LedgerOp → Bool
  | [] => true
  | .AddResource _ quantity :: ops => decide (0 ≤ quantity) && addsNonneg ops
  | _ :: ops => addsNonneg ops

/-- The `-=` of a `ConsumeResource` call does not overflow: the call is refused, or the exact
difference is a value of `int`. -/
def Stockpile.consumeFits (s : Stockpile) (name : String) (quantity : Int) : Bool :=
  !(s.ConsumeResource name quantity).1 || decide (fitsInt (s.GetQuantity name - quantity))

/-- No `ConsumeResource` call of the deduction loop over the given input cells overflows. -/
def deductFits : List (String × Int) → Stockpile → Bool
  | [], _ => true
  | c :: cells, s => s.consumeFits c.1 c.2 && deductFits cells (s.ConsumeResource c.1 c.2).2

/-- The call performs no signed overflow: the exact sum of an `AddResource` and the exact
difference of every `ConsumeResource` that is carried out (directly or by `Apply`) are
values of `int`. -/
def ledgerStepFits (s : Stockpile) : LedgerOp → Bool
  | .AddResource name quantity => decide (fitsInt (s.GetQuantity name + quantity))
  | .ConsumeResource name quantity => s.consumeFits name quantity
  | .StoreFormulaResult _ => true
  | .Apply plan chance =>
    !(plan.Apply s chance).succeeded
      || deductFits (readAt plan.formulas plan._currentStep).inputs s

/-- No call of the sequence, run from the ledger `s`, performs a signed overflow. -/
def runFits : Stockpile → List LedgerOp → Bool
  | _, [] => true
  | s, op :: ops => ledgerStepFits s op && runFits (ledgerStep s op) ops

/-! The three rates of `Formula::DetermineMultiplier` -/

/-- The local `failureRate` of `Formula::DetermineMultiplier`. -/
def Formula.failureRate (f : Formula) : Int :=
  Dbl.toInt (Dbl.sub (Dbl.mul Formula.InitialFailureRate (Dbl.ofInt 100))
    (Dbl.mul (Dbl.mul Formula.ProficiencyImpact (Dbl.ofInt f.proficiencyLevel))
      (Dbl.ofInt 100)))

/-- The local `partialRate` of `Formula::DetermineMultiplier`. -/
def Formula.partialRate (f : Formula) : Int :=
  Dbl.toInt (Dbl.sub (Dbl.mul Formula.InitialPartialOutputRate (Dbl.ofInt 100))
    (Dbl.mul (Dbl.mul Formula.ProficiencyImpact (Dbl.ofInt f.proficiencyLevel))
      (Dbl.ofInt 100)))

/-- The local `normalRate` of `Formula::DetermineMultiplier`. -/
def Formula.normalRate (f : Formula) : Int :=
  Dbl.toInt (Dbl.add (Dbl.mul Formula.InitialNormalOutputRate (Dbl.ofInt 100))
    (Dbl.mul (Dbl.mul Formula.ProficiencyImpact (Dbl.ofInt f.proficiencyLevel))
      (Dbl.ofInt 100)))

/-- A recipe with one large output quantity, as `Formula::Formula` stores it from the
arrays [], [] and ["Gold"], [2000000000]. -/
def goldFormula : Formula := ⟨[], [("Gold", 2000000000)], 0⟩

/-! The loops over the input cells -/

/-- Reading name and quantity at every index below `inputSize` gives back the input cells. -/
theorem Formula.range_map_input (f : Formula) :
    (List.range f.GetInputSize.toNat).map
      (fun i : Nat => (f.GetInputName i, f.GetInputQuantity i)) = f.inputs := by
  apply List.ext_getElem
  · simp [Formula.GetInputSize, Formula.inputSize]
  · intro n h1 h2
    have hn : n < f.inputs.length := h2
    simp [Formula.GetInputName, Formula.GetInputQuantity, Formula.inputSize, hn,
      List.getD_eq_getElem]

theorem all_map_cells {α β : Type} (l : List α) (g : α → β) (q : β → Bool) :
    (l.map g).all q = l.all (fun a => q (g a)) := by
  induction l with
  | nil => rfl
  | cons a t ih => simp [ih]

theorem ExecutablePlan.resourcesAvailable_eq (f : Formula) (s : Stockpile) :
    ExecutablePlan.resourcesAvailable f s
      = f.inputs.all (fun c => ! decide (s.GetQuantity c.1 < c.2)) := by
  conv_rhs => rw [← Formula.range_map_input f]
  rw [all_map_cells]
  rfl

theorem ExecutablePlan.deductResources_eq (f : Formula) (s : Stockpile) :
    ExecutablePlan.deductResources f s
      = f.inputs.foldl (fun (s : Stockpile) c => (s.ConsumeResource c.1 c.2).2) s := by
  conv_rhs => rw [← Formula.range_map_input f]
  simp [ExecutablePlan.deductResources, List.foldl_map]

/-! Wrapped `int` arithmetic -/

theorem wrapInt_of_fits (x : Int) (h : fitsInt x) : wrapInt x = x := by
  unfold fitsInt INT_MIN INT_MAX at h
  unfold wrapInt INT_MIN
  omega

theorem wrapInt_fits (x : Int) : fitsInt (wrapInt x) := by
  unfold fitsInt wrapInt INT_MIN INT_MAX
  omega

theorem wrapInt_add_wrapInt (x y : Int) : wrapInt (wrapInt x + y) = wrapInt (x + y) := by
  unfold wrapInt INT_MIN
  omega

theorem Stockpile.getQuantity_fits (s : Stockpile) (n : String) : fitsInt (s.GetQuantity n) := by
  unfold Stockpile.GetQuantity
  cases hres : s.resources n with
  | none => exact ⟨by decide, by decide⟩
  | some q => exact s.fits n q hres

theorem Stockpile.getD_eq_getQuantity (s : Stockpile) (n : String) :
    (s.resources n).getD 0 = s.GetQuantity n := by
  unfold Stockpile.GetQuantity
  cases s.resources n <;> rfl

/-! One `ConsumeResource` call -/

theorem Stockpile.consume_flag (s : Stockpile) (name : String) (quantity : Int) :
    (s.ConsumeResource name quantity).1 = true
      ↔ (s.resources name ≠ none ∧ s.GetQuantity name ≥ quantity) := by
  unfold Stockpile.ConsumeResource Stockpile.GetQuantity
  cases hres : s.resources name with
  | none => simp
  | some q =>
    by_cases hq : q ≥ quantity
    · simp [hq]
    · simp [hq]

theorem Stockpile.consume_refused (s : Stockpile) (name : String) (quantity : Int)
    (h : (s.ConsumeResource name quantity).1 = false) :
    (s.ConsumeResource name quantity).2 = s := by
  unfold Stockpile.ConsumeResource at h ⊢
  cases hres : s.resources name with
  | none => rfl
  | some q =>
    rw [hres] at h
    by_cases hq : q ≥ quantity
    · simp [hq] at h
    · simp [hq]

/-- The quantity of `name` after a `ConsumeResource` call that was carried out: the exact
difference wrapped into `int`. -/
theorem Stockpile.consume_same_wrap (s : Stockpile) (name : String) (quantity : Int)
    (h : (s.ConsumeResource name quantity).1 = true) :
    (s.ConsumeResource name quantity).2.GetQuantity name
      = wrapInt (s.GetQuantity name - quantity) := by
  unfold Stockpile.ConsumeResource at h ⊢
  unfold Stockpile.GetQuantity
  cases hres : s.resources name with
  | none => rw [hres] at h; cases h
  | some q =>
    rw [hres] at h
    by_cases hq : q ≥ quantity
    · simp [hq]
    · simp [hq] at h

theorem Stockpile.consume_resources_other (s : Stockpile) (name : String) (quantity : Int)
    (m : String) (hm : m ≠ name) :
    (s.ConsumeResource name quantity).2.resources m = s.resources m := by
  unfold Stockpile.ConsumeResource
  cases hres : s.resources name with
  | none => rfl
  | some q =>
    by_cases hq : q ≥ quantity
    · simp [hq, hm]
    · simp [hq]

theorem Stockpile.consume_resources_same (s : Stockpile) (name : String) (quantity : Int)
    (h : s.resources name = none) :
    (s.ConsumeResource name quantity).2.resources name = none := by
  unfold Stockpile.ConsumeResource
  rw [h]
  exact h

theorem Stockpile.consume_applyResults (s : Stockpile) (name : String) (quantity : Int) :
    (s.ConsumeResource name quantity).2.applyResults = s.applyResults := by
  unfold Stockpile.ConsumeResource
  split
  · split <;> rfl
  · rfl

theorem Stockpile.consume_other (s : Stockpile) (name : String) (quantity : Int) (m : String)
    (hm : m ≠ name) :
    (s.ConsumeResource name quantity).2.GetQuantity m = s.GetQuantity m := by
  unfold Stockpile.GetQuantity
  rw [Stockpile.consume_resources_other s name quantity m hm]

theorem Stockpile.consume_same (s : Stockpile) (name : String) (quantity : Int)
    (h0 : 0 ≤ quantity) (hq : quantity ≤ s.GetQuantity name) :
    (s.ConsumeResource name quantity).2.GetQuantity name = s.GetQuantity name - quantity := by
  have hfit := Stockpile.getQuantity_fits s name
  cases hflag : (s.ConsumeResource name quantity).1 with
  | true =>
    rw [Stockpile.consume_same_wrap s name quantity hflag]
    apply wrapInt_of_fits
    unfold fitsInt INT_MIN INT_MAX at hfit ⊢
    omega
  | false =>
    rw [Stockpile.consume_refused s name quantity hflag]
    have hno : ¬ (s.resources name ≠ none ∧ s.GetQuantity name ≥ quantity) := by
      rw [← Stockpile.consume_flag, hflag]
      simp
    have hnone : s.resources name = none := by
      by_contra hne
      exact hno ⟨hne, hq⟩
    have hg : s.GetQuantity name = 0 := by simp [Stockpile.GetQuantity, hnone]
    omega

/-! The deduction loop on a list of input cells -/

theorem deduct_applyResults (l : List (String × Int)) (s : Stockpile) :
    (l.foldl (fun (s : Stockpile) c => (s.ConsumeResource c.1 c.2).2) s).applyResults
      = s.applyResults := by
  induction l generalizing s with
  | nil => rfl
  | cons c t ih => simp [List.foldl_cons, ih, Stockpile.consume_applyResults]

theorem deduct_other (l : List (String × Int)) (s : Stockpile) (m : String)
    (hm : m ∉ l.map Prod.fst) :
    (l.foldl (fun (s : Stockpile) c => (s.ConsumeResource c.1 c.2).2) s).GetQuantity m
      = s.GetQuantity m := by
  induction l generalizing s with
  | nil => rfl
  | cons c t ih =>
    simp only [List.map_cons, List.mem_cons, not_or] at hm
    simp only [List.foldl_cons]
    rw [ih _ hm.2, Stockpile.consume_other _ _ _ _ hm.1]

theorem deduct_distinct (l : List (String × Int)) (s : Stockpile)
    (hdist : (l.map Prod.fst).Nodup)
    (hvalid : ∀ c ∈ l, 0 ≤ c.2)
    (hhave : ∀ c ∈ l, c.2 ≤ s.GetQuantity c.1) :
    ∀ c ∈ l, (l.foldl (fun (s : Stockpile) c => (s.ConsumeResource c.1 c.2).2) s).GetQuantity c.1
      = s.GetQuantity c.1 - c.2 := by
  induction l generalizing s with
  | nil => intro c hc; cases hc
  | cons d t ih =>
    simp only [List.map_cons, List.nodup_cons] at hdist
    intro c hc
    simp only [List.foldl_cons]
    rcases List.mem_cons.1 hc with rfl | hct
    · rw [deduct_other _ _ _ hdist.1]
      exact Stockpile.consume_same _ _ _ (hvalid _ (List.mem_cons_self _ _))
        (hhave _ (List.mem_cons_self _ _))
    · have hne : c.1 ≠ d.1 := by
        intro h
        exact hdist.1 (h ▸ List.mem_map_of_mem Prod.fst hct)
      have hkeep : ∀ e ∈ t, e.2 ≤ ((s.ConsumeResource d.1 d.2).2).GetQuantity e.1 := by
        intro e he
        have hne' : e.1 ≠ d.1 := by
          intro h
          exact hdist.1 (h ▸ List.mem_map_of_mem Prod.fst he)
        rw [Stockpile.consume_other _ _ _ _ hne']
        exact hhave _ (List.mem_cons_of_mem _ he)
      rw [ih _ hdist.2 (fun e he => hvalid _ (List.mem_cons_of_mem _ he)) hkeep c hct,
        Stockpile.consume_other _ _ _ _ hne]

/-! ExecutablePlan::Apply -/

/-- C1: when the plan is not exhausted and some input cell of the recipe at the cursor asks
for more than the ledger holds, `Apply` throws the insufficient-resources error and neither
the plan (recipes, count, cursor) nor the ledger (quantities, result log) changes. -/
theorem apply_insufficient_resources (p : ExecutablePlan) (s : Stockpile) (chance : Int)
    (hcur : p._currentStep < p.size)
    (hshort : ∃ c ∈ (readAt p.formulas p._currentStep).inputs, s.GetQuantity c.1 < c.2) :
    (p.Apply s chance).result
        = .error (.runtime_error "Insufficient resources to apply formula.")
      ∧ (p.Apply s chance).state = (p, s) := by
  have hav : ExecutablePlan.resourcesAvailable (readAt p.formulas p._currentStep) s = false := by
    rw [ExecutablePlan.resourcesAvailable_eq]
    obtain ⟨c, hc, hlt⟩ := hshort
    rw [Bool.eq_false_iff]
    intro hall
    have := List.all_eq_true.1 hall c hc
    simp [hlt] at this
  have hns : ¬ p._currentStep ≥ p.size := by omega
  simp [ExecutablePlan.Apply, hns, hav]

/-- Witness of C1: the recipe needing Carbon 5 and Water 10 on the ledger Water 2, Carbon 5. -/
theorem apply_insufficient_resources_witness :
    ((ExecutablePlan.new [thirstyFormula]).Apply thirstyLedger 60).result
        = .error (.runtime_error "Insufficient resources to apply formula.")
      ∧ ((ExecutablePlan.new [thirstyFormula]).Apply thirstyLedger 60).state
        = (ExecutablePlan.new [thirstyFormula], thirstyLedger) :=
  apply_insufficient_resources (ExecutablePlan.new [thirstyFormula]) thirstyLedger 60
    (by decide) ⟨("Water", 10), by decide, by decide⟩

/-- C2 (the code at the failing input): the recipe listing Water 3 twice passes the
feasibility check on a ledger holding Water 4, `Apply` returns normally and logs a result,
yet Water goes from 4 to 1, not to 4 - (3 + 3): the second `ConsumeResource` call is
refused and its flag is dropped. -/
theorem apply_repeated_input_not_all_consumed :
    (∀ c ∈ twiceWaterFormula.inputs, fourWaterLedger.GetQuantity c.1 ≥ c.2)
      ∧ ((ExecutablePlan.new [twiceWaterFormula]).Apply fourWaterLedger 60).succeeded = true
      ∧ fourWaterLedger.GetQuantity "Water" = 4
      ∧ ((twiceWaterFormula.inputs.filter (fun c => c.1 = "Water")).map Prod.snd).sum = 6
      ∧ (((ExecutablePlan.new [twiceWaterFormula]).Apply fourWaterLedger 60).state.2).GetQuantity
          "Water" = 1
      ∧ (((ExecutablePlan.new [twiceWaterFormula]).Apply fourWaterLedger 60).state.2).applyResults
          = ["1 Steam"] := by
  decide

/-- C3: when the plan is not exhausted, the input names of the recipe at the cursor are
pairwise distinct (its quantities non-negative, as the constructor guarantees) and the ledger
holds at least the required quantity of each input, `Apply` returns normally, every input
name loses exactly its required quantity and every other name keeps its quantity. -/
theorem apply_distinct_inputs (p : ExecutablePlan) (s : Stockpile) (chance : Int)
    (hcur : p._currentStep < p.size)
    (hdist : ((readAt p.formulas p._currentStep).inputs.map Prod.fst).Nodup)
    (hvalid : ∀ c ∈ (readAt p.formulas p._currentStep).inputs, 0 ≤ c.2)
    (hhave : ∀ c ∈ (readAt p.formulas p._currentStep).inputs, c.2 ≤ s.GetQuantity c.1) :
    (p.Apply s chance).succeeded = true
      ∧ (∀ c ∈ (readAt p.formulas p._currentStep).inputs,
          (p.Apply s chance).state.2.GetQuantity c.1 = s.GetQuantity c.1 - c.2)
      ∧ (∀ n, n ∉ (readAt p.formulas p._currentStep).inputs.map Prod.fst →
          (p.Apply s chance).state.2.GetQuantity n = s.GetQuantity n) := by
  have hav : ExecutablePlan.resourcesAvailable (readAt p.formulas p._currentStep) s = true := by
    rw [ExecutablePlan.resourcesAvailable_eq, List.all_eq_true]
    intro c hc
    have := hhave c hc
    simp only [Bool.not_eq_true', decide_eq_false_iff_not]
    omega
  have hns : ¬ p._currentStep ≥ p.size := by omega
  have hst : (p.Apply s chance).state.2
      = (ExecutablePlan.deductResources (readAt p.formulas p._currentStep) s).StoreFormulaResult
          ((readAt p.formulas p._currentStep).Apply chance) := by
    simp [ExecutablePlan.Apply, hns, hav]
  refine ⟨by simp [ExecutablePlan.Apply, hns, hav, Outcome.succeeded], ?_, ?_⟩
  · intro c hc
    rw [hst, ExecutablePlan.deductResources_eq]
    exact deduct_distinct _ s hdist hvalid hhave c hc
  · intro n hn
    rw [hst, ExecutablePlan.deductResources_eq]
    exact deduct_other _ s n hn

/-- Witness of C3: the recipe Water 2, Carbon 1 -> Glucose 1 on the ledger Water 2, Carbon 2,
Sunlight 1 leaves Water 0, Carbon 1, Sunlight 1. -/
theorem apply_distinct_inputs_witness :
    ((ExecutablePlan.new [glucoseFormula, oxygenFormula]).Apply glucoseLedger 60).succeeded = true
      ∧ (((ExecutablePlan.new [glucoseFormula, oxygenFormula]).Apply glucoseLedger 60).state.2).GetQuantity
          "Water" = 0
      ∧ (((ExecutablePlan.new [glucoseFormula, oxygenFormula]).Apply glucoseLedger 60).state.2).GetQuantity
          "Carbon" = 1
      ∧ (((ExecutablePlan.new [glucoseFormula, oxygenFormula]).Apply glucoseLedger 60).state.2).GetQuantity
          "Sunlight" = 1 := by
  have h := apply_distinct_inputs (ExecutablePlan.new [glucoseFormula, oxygenFormula])
    glucoseLedger 60 (by decide) (by decide) (by decide) (by decide)
  refine ⟨h.1, ?_, ?_, ?_⟩
  · exact h.2.1 ("Water", 2) (by decide)
  · exact h.2.1 ("Carbon", 1) (by decide)
  · exact h.2.2 "Sunlight" (by decide)

theorem ExecutablePlan.deductResources_applyResults (f : Formula) (s : Stockpile) :
    (ExecutablePlan.deductResources f s).applyResults = s.applyResults := by
  rw [ExecutablePlan.deductResources_eq]
  exact deduct_applyResults _ s

/-- C4: whenever `Apply` returns normally with ledger `r`, the result log is the old log
with exactly one entry appended at the end, the string `Formula::Apply` gives for the recipe
at the old cursor under the draw of this call; the cursor is the old cursor plus 1 (recipes,
count and capacity as before); and the returned ledger `r` is the ledger passed in, in its
state after the call. -/
theorem apply_success_log_cursor (p : ExecutablePlan) (s r : Stockpile) (chance : Int)
    (hok : (p.Apply s chance).result = .ok r) :
    (p.Apply s chance).state.2.applyResults
        = s.applyResults ++ [(readAt p.formulas p._currentStep).Apply chance]
      ∧ (p.Apply s chance).state.1._currentStep = p._currentStep + 1
      ∧ (p.Apply s chance).state.1.toPlan = p.toPlan
      ∧ r = (p.Apply s chance).state.2 := by
  by_cases hex : p._currentStep ≥ p.size
  · simp [ExecutablePlan.Apply, hex] at hok
  · cases hav : ExecutablePlan.resourcesAvailable (readAt p.formulas p._currentStep) s with
    | false => simp [ExecutablePlan.Apply, hex, hav] at hok
    | true =>
      simp only [ExecutablePlan.Apply, hex, hav, if_false, Bool.not_true, Bool.false_eq_true,
        Except.ok.injEq] at hok ⊢
      refine ⟨?_, trivial, trivial, hok.symm⟩
      simp [Stockpile.StoreFormulaResult, ExecutablePlan.deductResources_applyResults]

/-- Witness of C4: the first step of the two-recipe plan of simulator.cpp on its ledger,
with a draw in the normal band. -/
theorem apply_success_log_cursor_witness :
    (((ExecutablePlan.new [glucoseFormula, oxygenFormula]).Apply glucoseLedger 60).state.2).applyResults
        = [] ++ ["1 Glucose"]
      ∧ (((ExecutablePlan.new [glucoseFormula, oxygenFormula]).Apply glucoseLedger 60).state.1)._currentStep
        = 0 + 1 :=
  have h := apply_success_log_cursor (ExecutablePlan.new [glucoseFormula, oxygenFormula])
    glucoseLedger
    (((ExecutablePlan.new [glucoseFormula, oxygenFormula]).Apply glucoseLedger 60).state.2)
    60 (by rfl)
  ⟨h.1, h.2.1⟩

/-- C5: on a plan with cursor >= count `Apply` throws the exhausted-plan error whatever the
ledger holds (the resource check is never reached) and neither the plan nor the ledger
changes. -/
theorem apply_exhausted (p : ExecutablePlan) (s : Stockpile) (chance : Int)
    (hex : p._currentStep ≥ p.size) :
    (p.Apply s chance).result = .error (.runtime_error "No more formulas to apply.")
      ∧ (p.Apply s chance).state = (p, s) := by
  simp [ExecutablePlan.Apply, hex]

/-- Witness of C5: a two-recipe plan after one executed step and one `Remove` is exhausted
(cursor 1, count 1) while the array cell at the cursor still holds the recipe needing
Water 10; on the ledger holding Water 2 the error is the exhausted-plan one. -/
theorem apply_exhausted_witness :
    ((runOps (ExecutablePlan.new [glucoseFormula, thirstyFormula])
        [.ApplyCurrentFormula 60, .Remove]).Apply thirstyLedger 60).result
        = .error (.runtime_error "No more formulas to apply.")
      ∧ ((runOps (ExecutablePlan.new [glucoseFormula, thirstyFormula])
        [.ApplyCurrentFormula 60, .Remove]).Apply thirstyLedger 60).state
        = (runOps (ExecutablePlan.new [glucoseFormula, thirstyFormula])
            [.ApplyCurrentFormula 60, .Remove], thirstyLedger) :=
  apply_exhausted
    (runOps (ExecutablePlan.new [glucoseFormula, thirstyFormula])
      [.ApplyCurrentFormula 60, .Remove])
    thirstyLedger 60 (by decide)

/-! ExecutablePlan::ApplyCurrentFormula, Replace, Remove -/

/-- C6: `ApplyCurrentFormula` throws the exhausted-plan error exactly when cursor >= count,
and then leaves the plan (cursor included) as it was; otherwise it returns the
`Formula::Apply` string of the recipe at the old cursor, the cursor grows by exactly 1 and
the recipes, the count and the capacity stay as they were. -/
theorem applyCurrentFormula_spec (p : ExecutablePlan) (chance : Int) :
    ((p.ApplyCurrentFormula chance).result
          = .error (.runtime_error "No more formulas to apply.")
        ↔ p._currentStep ≥ p.size)
      ∧ ((p.ApplyCurrentFormula chance).succeeded = false ↔ p._currentStep ≥ p.size)
      ∧ (p._currentStep ≥ p.size → (p.ApplyCurrentFormula chance).state = p)
      ∧ (p._currentStep < p.size →
          (p.ApplyCurrentFormula chance).result
              = .ok ((readAt p.formulas p._currentStep).Apply chance)
            ∧ (p.ApplyCurrentFormula chance).state._currentStep = p._currentStep + 1
            ∧ (p.ApplyCurrentFormula chance).state.toPlan = p.toPlan) := by
  by_cases h : p._currentStep ≥ p.size
  · have h2 : ¬ p._currentStep < p.size := by omega
    simp [ExecutablePlan.ApplyCurrentFormula, Outcome.succeeded, h, h2]
  · have h2 : p._currentStep < p.size := by omega
    simp [ExecutablePlan.ApplyCurrentFormula, Outcome.succeeded, h, h2]

/-- C8: `Replace` with an index below the cursor (negative indices included) throws the
step-already-executed error, whether or not the plan is exhausted, and leaves the recipes,
the count and the cursor as they were. -/
theorem replace_executed_step (p : ExecutablePlan) (index : Int) (formula : Formula)
    (hlt : index < p._currentStep) :
    (p.Replace index formula).result
        = .error (.runtime_error "Cannot replace a formula that has already been applied.")
      ∧ (p.Replace index formula).state = p := by
  simp [ExecutablePlan.Replace, hlt]

/-- Witness of C8: after one executed step of the two-recipe plan, replacing index 0. -/
theorem replace_executed_step_witness :
    ((step (ExecutablePlan.new [glucoseFormula, oxygenFormula]) (.ApplyCurrentFormula 60)).Replace
        0 thirstyFormula).result
        = .error (.runtime_error "Cannot replace a formula that has already been applied.")
      ∧ ((step (ExecutablePlan.new [glucoseFormula, oxygenFormula]) (.ApplyCurrentFormula 60)).Replace
        0 thirstyFormula).state
        = step (ExecutablePlan.new [glucoseFormula, oxygenFormula]) (.ApplyCurrentFormula 60) :=
  replace_executed_step _ 0 thirstyFormula (by decide)

theorem readAt_writeAt_same (a : List Formula) (i : Int) (f : Formula)
    (h0 : 0 ≤ i) (hlen : i < a.length) : readAt (writeAt a i f) i = f := by
  have hn : i.toNat < a.length := by omega
  simp [readAt, writeAt, h0, List.getD_eq_getElem?_getD, hn]

theorem readAt_writeAt_other (a : List Formula) (i j : Int) (f : Formula) (hne : j ≠ i) :
    readAt (writeAt a i f) j = readAt a j := by
  unfold readAt writeAt
  by_cases hj : 0 ≤ j
  · by_cases hi : 0 ≤ i
    · have hn : i.toNat ≠ j.toNat := by omega
      simp [hi, hj, List.getD_eq_getElem?_getD, List.getElem?_set_ne hn]
    · simp [hi]
  · simp [hj]

/-- C9: for an index at or after the cursor (the cursor non-negative and the count within
the allocated array, as in every constructed plan): when the index is below the count,
`Replace` returns normally, the recipe at the index is the given one, every other cell of
the array, the count, the capacity and the cursor are as before, and when the index is the
cursor a following `Apply` checks, consumes and applies the new recipe; when the index is at
or beyond the count, `Replace` throws the out-of-range error and changes nothing. -/
theorem replace_pending_step (p : ExecutablePlan) (index : Int) (formula : Formula)
    (h0 : 0 ≤ p._currentStep) (hcap : p.size ≤ p.formulas.length)
    (hge : p._currentStep ≤ index) :
    (index < p.size →
        (p.Replace index formula).result = .ok ()
          ∧ readAt (p.Replace index formula).state.formulas index = formula
          ∧ (∀ j, j ≠ index →
              readAt (p.Replace index formula).state.formulas j = readAt p.formulas j)
          ∧ (p.Replace index formula).state.formulas.length = p.formulas.length
          ∧ (p.Replace index formula).state.size = p.size
          ∧ (p.Replace index formula).state.capacity = p.capacity
          ∧ (p.Replace index formula).state._currentStep = p._currentStep
          ∧ (index = p._currentStep → ∀ (s : Stockpile) (chance : Int),
              ((p.Replace index formula).state.Apply s chance).state.2
                = if ExecutablePlan.resourcesAvailable formula s then
                    (ExecutablePlan.deductResources formula s).StoreFormulaResult
                      (formula.Apply chance)
                  else s))
      ∧ (index ≥ p.size →
          (p.Replace index formula).result = .error (.out_of_range "Index out of range")
            ∧ (p.Replace index formula).state = p) := by
  have hnl : ¬ index < p._currentStep := by omega
  constructor
  · intro hlt
    have hin : ¬ (index < 0 ∨ index ≥ p.size) := by omega
    have hst : (p.Replace index formula).state
        = { p with formulas := writeAt p.formulas index formula } := by
      simp [ExecutablePlan.Replace, Plan.Replace, hnl, hin]
    have hrd : readAt (writeAt p.formulas index formula) index = formula :=
      readAt_writeAt_same _ _ _ (by omega) (by omega)
    refine ⟨by simp [ExecutablePlan.Replace, Plan.Replace, hnl, hin], ?_, ?_, ?_, ?_, ?_, ?_, ?_⟩
    · rw [hst]; exact hrd
    · intro j hj
      rw [hst]; exact readAt_writeAt_other _ _ _ _ hj
    · rw [hst]; unfold writeAt; split <;> simp
    · rw [hst]
    · rw [hst]
    · rw [hst]
    · intro hidx s chance
      rw [hst]
      have hns : ¬ p._currentStep ≥ p.size := by omega
      subst hidx
      cases hav : ExecutablePlan.resourcesAvailable formula s <;>
        simp [ExecutablePlan.Apply, hns, hrd, hav]
  · intro hout
    have hin : index < 0 ∨ index ≥ p.size := Or.inr hout
    simp [ExecutablePlan.Replace, Plan.Replace, hnl, hin]

/-- Witness of C9: replacing index 1 of the two-recipe plan after one executed step. -/
theorem replace_pending_step_witness :
    ((step (ExecutablePlan.new [glucoseFormula, oxygenFormula]) (.ApplyCurrentFormula 60)).Replace
        1 thirstyFormula).result = .ok ()
      ∧ readAt ((step (ExecutablePlan.new [glucoseFormula, oxygenFormula])
          (.ApplyCurrentFormula 60)).Replace 1 thirstyFormula).state.formulas 1 = thirstyFormula
      ∧ readAt ((step (ExecutablePlan.new [glucoseFormula, oxygenFormula])
          (.ApplyCurrentFormula 60)).Replace 1 thirstyFormula).state.formulas 0 = glucoseFormula :=
  have h := (replace_pending_step
    (step (ExecutablePlan.new [glucoseFormula, oxygenFormula]) (.ApplyCurrentFormula 60))
    1 thirstyFormula (by decide) (by decide) (by decide)).1 (by decide)
  ⟨h.1, h.2.1, h.2.2.1 0 (by decide)⟩

/-- C10: on a plan whose cursor is non-negative (as in every constructed plan), `Remove`
throws the step-already-completed error exactly when cursor >= count, which is the case of
every empty plan, and then changes nothing; otherwise it returns normally, the count is one
less, and the cursor, the array of recipes and the capacity are as before. -/
theorem remove_spec (p : ExecutablePlan) (h0 : 0 ≤ p._currentStep) :
    (p.Remove.result
          = .error (.runtime_error
              "Cannot remove the last formula if it has already been completed.")
        ↔ p._currentStep ≥ p.size)
      ∧ (p.Remove.succeeded = false ↔ p._currentStep ≥ p.size)
      ∧ (p.size = 0 → p.Remove.succeeded = false)
      ∧ (p._currentStep ≥ p.size → p.Remove.state = p)
      ∧ (p._currentStep < p.size →
          p.Remove.result = .ok ()
            ∧ p.Remove.state.size = p.size - 1
            ∧ p.Remove.state._currentStep = p._currentStep
            ∧ p.Remove.state.formulas = p.formulas
            ∧ p.Remove.state.capacity = p.capacity) := by
  by_cases h : p._currentStep ≥ p.size
  · have h2 : ¬ p._currentStep < p.size := by omega
    simp [ExecutablePlan.Remove, Outcome.succeeded, h, h2]
  · have h2 : p._currentStep < p.size := by omega
    have h3 : p.size > 0 := by omega
    have h4 : p.size ≠ 0 := by omega
    simp [ExecutablePlan.Remove, Plan.Remove, Outcome.succeeded, h, h2, h3, h4]

/-- Witness of C10: the two-recipe plan after one executed step loses its last recipe. -/
theorem remove_spec_witness :
    (step (ExecutablePlan.new [glucoseFormula, oxygenFormula])
        (.ApplyCurrentFormula 60)).Remove.result = .ok ()
      ∧ (step (ExecutablePlan.new [glucoseFormula, oxygenFormula])
        (.ApplyCurrentFormula 60)).Remove.state.size = 2 - 1 :=
  have h := (remove_spec
    (step (ExecutablePlan.new [glucoseFormula, oxygenFormula]) (.ApplyCurrentFormula 60))
    (by decide)).2.2.2.2 (by decide)
  ⟨h.1, h.2.1⟩

/-! The cursor stays within the count -/

theorem Plan.Add_size (p : Plan) (formula : Formula) : (p.Add formula).size = p.size + 1 := by
  unfold Plan.Add
  split <;> simp [Plan.ResizeIfNeeded]

/-- One operation other than an increment on an exhausted plan keeps `0 ≤ cursor ≤ count`. -/
theorem step_cursor_within_count (p : ExecutablePlan) (op : Op)
    (hinv : 0 ≤ p._currentStep ∧ p._currentStep ≤ p.size)
    (hop : incrBeforeEnd p [op] = true) :
    0 ≤ (step p op)._currentStep ∧ (step p op)._currentStep ≤ (step p op).size := by
  cases op with
  | Add formula =>
    simp only [step, ExecutablePlan.Add, Plan.Add_size]
    omega
  | Remove =>
    simp only [step, ExecutablePlan.Remove]
    split
    · exact hinv
    · simp only [Plan.Remove]
      split <;> (try simp) <;> omega
  | Replace index formula =>
    simp only [step, ExecutablePlan.Replace, Plan.Replace]
    split
    · exact hinv
    · split <;> exact hinv
  | Apply inputStockpile chance =>
    simp only [step, ExecutablePlan.Apply]
    split
    · exact hinv
    · split
      · exact hinv
      · simp; omega
  | ApplyCurrentFormula chance =>
    simp only [step, ExecutablePlan.ApplyCurrentFormula]
    split
    · exact hinv
    · simp; omega
  | incr =>
    simp [incrBeforeEnd] at hop
    simp only [step, ExecutablePlan.incr]
    omega

theorem incrBeforeEnd_cons (p : ExecutablePlan) (op : Op) (ops : List Op) :
    incrBeforeEnd p (op :: ops) = (incrBeforeEnd p [op] && incrBeforeEnd (step p op) ops) := by
  cases op <;> simp [incrBeforeEnd]

theorem runOps_cursor_within_count (ops : List Op) (p : ExecutablePlan)
    (hinv : 0 ≤ p._currentStep ∧ p._currentStep ≤ p.size)
    (hops : incrBeforeEnd p ops = true) :
    0 ≤ (runOps p ops)._currentStep ∧ (runOps p ops)._currentStep ≤ (runOps p ops).size := by
  induction ops generalizing p with
  | nil => exact hinv
  | cons op ops ih =>
    rw [incrBeforeEnd_cons, Bool.and_eq_true] at hops
    exact ih (step p op) (step_cursor_within_count p op hinv hops.1) hops.2

/-- C7 (counterexample): two prefix increments on a newly constructed one-recipe plan leave
the cursor at 2, above the count 1. -/
theorem incr_cursor_exceeds_count :
    ¬ ((runOps (ExecutablePlan.new [glucoseFormula]) [.incr, .incr])._currentStep
        ≤ (runOps (ExecutablePlan.new [glucoseFormula]) [.incr, .incr]).size) := by
  decide

/-- C7 (amended): in every state reached from a newly constructed plan by a sequence of
Add, Remove, Replace, Apply, ApplyCurrentFormula and prefix increment in which every prefix
increment is made while the cursor is below the count, `0 ≤ cursor ≤ count` holds. -/
theorem reachable_cursor_within_count (initialFormulas : List Formula) (ops : List Op)
    (hops : incrBeforeEnd (ExecutablePlan.new initialFormulas) ops = true) :
    0 ≤ (runOps (ExecutablePlan.new initialFormulas) ops)._currentStep
      ∧ (runOps (ExecutablePlan.new initialFormulas) ops)._currentStep
          ≤ (runOps (ExecutablePlan.new initialFormulas) ops).size := by
  apply runOps_cursor_within_count ops _ _ hops
  simp [ExecutablePlan.new, Plan.new]

/-- Witness of C7 (amended): a run through all six operations on the plan and ledger of
simulator.cpp; it ends with cursor 2 and count 2. -/
theorem reachable_cursor_within_count_witness :
    0 ≤ (runOps (ExecutablePlan.new [glucoseFormula])
          [.Add oxygenFormula, .Apply glucoseLedger 60, .Add thirstyFormula, .incr, .Remove,
            .Replace 0 thirstyFormula, .ApplyCurrentFormula 3])._currentStep
      ∧ (runOps (ExecutablePlan.new [glucoseFormula])
          [.Add oxygenFormula, .Apply glucoseLedger 60, .Add thirstyFormula, .incr, .Remove,
            .Replace 0 thirstyFormula, .ApplyCurrentFormula 3])._currentStep
        ≤ (runOps (ExecutablePlan.new [glucoseFormula])
          [.Add oxygenFormula, .Apply glucoseLedger 60, .Add thirstyFormula, .incr, .Remove,
            .Replace 0 thirstyFormula, .ApplyCurrentFormula 3]).size :=
  reachable_cursor_within_count [glucoseFormula]
    [.Add oxygenFormula, .Apply glucoseLedger 60, .Add thirstyFormula, .incr, .Remove,
      .Replace 0 thirstyFormula, .ApplyCurrentFormula 3] (by decide)

/-! The array of a plan: allocation invariant -/

theorem writeAt_length (a : List Formula) (i : Int) (f : Formula) :
    (writeAt a i f).length = a.length := by
  unfold writeAt
  split <;> simp

/-- The copy loop of `ResizeIfNeeded` keeps the length of the fresh array. -/
theorem copyLoop_length (src : List Formula) (n : Nat) (init : List Formula) :
    ((List.range n).foldl (fun (a : List Formula) (i : Nat) => writeAt a i (readAt src i))
      init).length = init.length := by
  induction n with
  | zero => rfl
  | succ n ih => simp [List.range_succ, List.foldl_append, writeAt_length, ih]

/-- The copy loop of `ResizeIfNeeded`: the cells below the count hold the old formulas, the
other cells are those of the fresh array. -/
theorem copyLoop_read (src : List Formula) (n : Nat) (init : List Formula) (j : Int) :
    readAt ((List.range n).foldl
        (fun (a : List Formula) (i : Nat) => writeAt a i (readAt src i)) init) j
      = if 0 ≤ j ∧ j < n ∧ j < init.length then readAt src j else readAt init j := by
  induction n with
  | zero =>
    have hc : ¬ (0 ≤ j ∧ j < ((0 : Nat) : Int) ∧ j < init.length) := by omega
    rw [if_neg hc]
    rfl
  | succ n ih =>
    simp only [List.range_succ, List.foldl_append, List.foldl_cons, List.foldl_nil]
    by_cases hj : j = (n : Int)
    · subst hj
      by_cases hlen : n < init.length
      · rw [readAt_writeAt_same _ _ _ (by omega) (by rw [copyLoop_length]; omega)]
        have hc : (0 : Int) ≤ n ∧ (n : Int) < ((n + 1 : Nat) : Int)
            ∧ (n : Int) < init.length := by omega
        rw [if_pos hc]
      · have hw : ∀ a : List Formula, a.length = init.length →
            writeAt a (n : Int) (readAt src n) = a := by
          intro a ha
          unfold writeAt
          simp only [Int.natCast_nonneg, if_true, Int.toNat_ofNat]
          exact List.set_eq_of_length_le (by omega)
        have h1 : ¬ ((0 : Int) ≤ n ∧ (n : Int) < (n : Int) ∧ (n : Int) < init.length) := by omega
        have h2 : ¬ ((0 : Int) ≤ n ∧ (n : Int) < ((n + 1 : Nat) : Int)
            ∧ (n : Int) < init.length) := by omega
        rw [hw _ (copyLoop_length _ _ _), ih, if_neg h1, if_neg h2]
    · rw [readAt_writeAt_other _ _ _ _ hj, ih]
      by_cases hc : 0 ≤ j ∧ j < (n : Int) ∧ j < init.length
      · have hc2 : 0 ≤ j ∧ j < ((n + 1 : Nat) : Int) ∧ j < init.length := by omega
        rw [if_pos hc, if_pos hc2]
      · have hc2 : ¬ (0 ≤ j ∧ j < ((n + 1 : Nat) : Int) ∧ j < init.length) := by omega
        rw [if_neg hc, if_neg hc2]

theorem Plan.new_WF (initialFormulas : List Formula) : (Plan.new initialFormulas).WF := by
  simp [Plan.new, Plan.WF]

theorem Plan.ResizeIfNeeded_WF (p : Plan) (h : p.WF) (hfull : p.size = p.capacity) :
    p.ResizeIfNeeded.WF ∧ p.ResizeIfNeeded.size < p.ResizeIfNeeded.capacity := by
  obtain ⟨h0, h1, h2⟩ := h
  unfold Plan.WF Plan.ResizeIfNeeded
  simp only [copyLoop_length, List.length_replicate]
  split <;> omega

theorem Plan.Add_WF (p : Plan) (formula : Formula) (h : p.WF) : (p.Add formula).WF := by
  unfold Plan.Add
  split
  next hfull =>
    obtain ⟨⟨h0, h1, h2⟩, h3⟩ := Plan.ResizeIfNeeded_WF p h hfull
    refine ⟨?_, ?_, ?_⟩
    · show 0 ≤ p.ResizeIfNeeded.size + 1
      omega
    · show p.ResizeIfNeeded.size + 1 ≤ p.ResizeIfNeeded.capacity
      omega
    · show ((writeAt p.ResizeIfNeeded.formulas p.ResizeIfNeeded.size formula).length : Int)
        = p.ResizeIfNeeded.capacity
      rw [writeAt_length]; exact h2
  next hfull =>
    obtain ⟨h0, h1, h2⟩ := h
    refine ⟨?_, ?_, ?_⟩
    · show 0 ≤ p.size + 1
      omega
    · show p.size + 1 ≤ p.capacity
      omega
    · show ((writeAt p.formulas p.size formula).length : Int) = p.capacity
      rw [writeAt_length]; exact h2

theorem Plan.Remove_WF (p : Plan) (h : p.WF) : p.Remove.WF := by
  obtain ⟨h0, h1, h2⟩ := h
  unfold Plan.Remove
  split
  · exact ⟨by show 0 ≤ p.size - 1; omega, by show p.size - 1 ≤ p.capacity; omega, h2⟩
  · exact ⟨h0, h1, h2⟩

theorem Plan.Replace_WF (p : Plan) (index : Int) (formula : Formula) (h : p.WF) :
    (p.Replace index formula).state.WF := by
  obtain ⟨h0, h1, h2⟩ := h
  unfold Plan.Replace
  split
  · exact ⟨h0, h1, h2⟩
  · exact ⟨h0, h1, by show ((writeAt p.formulas index formula).length : Int) = p.capacity
                      rw [writeAt_length]; exact h2⟩

theorem step_WF (p : ExecutablePlan) (op : Op) (h : p.toPlan.WF) : (step p op).toPlan.WF := by
  cases op with
  | Add formula => exact Plan.Add_WF _ _ h
  | Remove =>
    simp only [step, ExecutablePlan.Remove]
    split
    · exact h
    · exact Plan.Remove_WF _ h
  | Replace index formula =>
    simp only [step, ExecutablePlan.Replace]
    split
    · exact h
    · exact Plan.Replace_WF _ _ _ h
  | Apply inputStockpile chance =>
    simp only [step, ExecutablePlan.Apply]
    split
    · exact h
    · split <;> exact h
  | ApplyCurrentFormula chance =>
    simp only [step, ExecutablePlan.ApplyCurrentFormula]
    split <;> exact h
  | incr => exact h

/-- Every plan reached from a constructed one satisfies the class invariant of `Plan`; in
particular its count is within the allocated array. -/
theorem runOps_WF (ops : List Op) (p : ExecutablePlan) (h : p.toPlan.WF) :
    (runOps p ops).toPlan.WF := by
  induction ops generalizing p with
  | nil => exact h
  | cons op ops ih => exact ih (step p op) (step_WF p op h)

/-! ExecutablePlan relational operators -/

/-- C11 (the code at the failing input): `operator<=` of the executor returns
`_currentStep < other._currentStep`; on two plans with equal cursors, in particular on a
plan and itself, it is false although the cursor of the first is less than or equal to the
cursor of the second. -/
theorem le_false_on_equal_cursors :
    (ExecutablePlan.new [glucoseFormula]).le (ExecutablePlan.new [glucoseFormula]) = false
      ∧ (ExecutablePlan.new [glucoseFormula]).le (ExecutablePlan.new [thirstyFormula, oxygenFormula])
          = false
      ∧ (ExecutablePlan.new [glucoseFormula])._currentStep
          ≤ (ExecutablePlan.new [thirstyFormula, oxygenFormula])._currentStep
      ∧ (∀ a b : ExecutablePlan, a.le b = a.lt b) := by
  refine ⟨by decide, by decide, by decide, fun a b => rfl⟩

/-! Formula construction -/

/-- C12: constructing a `Formula` fails with the invalid-argument error exactly when some
input quantity or some output quantity is negative (and it fails in no other way); when it
succeeds the recipe holds the given inputs and outputs in the given order and its
proficiency level is 0. -/
theorem formula_new_spec (inputs outputs : List (String × Int)) :
    ((∃ what, Formula.new inputs outputs = .error (.invalid_argument what))
        ↔ ((∃ c ∈ inputs, c.2 < 0) ∨ (∃ c ∈ outputs, c.2 < 0)))
      ∧ ((∃ e, Formula.new inputs outputs = .error e)
        ↔ ((∃ c ∈ inputs, c.2 < 0) ∨ (∃ c ∈ outputs, c.2 < 0)))
      ∧ (¬ ((∃ c ∈ inputs, c.2 < 0) ∨ (∃ c ∈ outputs, c.2 < 0)) →
          Formula.new inputs outputs = .ok ⟨inputs, outputs, 0⟩)
      ∧ (∀ f, Formula.new inputs outputs = .ok f →
          f.inputs = inputs ∧ f.outputs = outputs ∧ f.proficiencyLevel = 0) := by
  by_cases hi : ∃ c ∈ inputs, c.2 < 0
  · have hany : inputs.any (fun c => decide (c.2 < 0)) = true := by
      obtain ⟨c, hc, hneg⟩ := hi
      exact List.any_eq_true.2 ⟨c, hc, by simpa using hneg⟩
    have hnew : Formula.new inputs outputs
        = .error (.invalid_argument "Negative value found in inputQuantities") := by
      simp only [Formula.new, hany, if_true]
    rw [hnew]
    refine ⟨⟨fun _ => Or.inl hi, fun _ => ⟨_, rfl⟩⟩, ⟨fun _ => Or.inl hi, fun _ => ⟨_, rfl⟩⟩,
      fun h => absurd (Or.inl hi) h, fun f hf => by cases hf⟩
  · have hany : inputs.any (fun c => decide (c.2 < 0)) = false := by
      rw [Bool.eq_false_iff]
      intro h
      obtain ⟨c, hc, hneg⟩ := List.any_eq_true.1 h
      exact hi ⟨c, hc, by simpa using hneg⟩
    by_cases ho : ∃ c ∈ outputs, c.2 < 0
    · have hanyo : outputs.any (fun c => decide (c.2 < 0)) = true := by
        obtain ⟨c, hc, hneg⟩ := ho
        exact List.any_eq_true.2 ⟨c, hc, by simpa using hneg⟩
      have hnew : Formula.new inputs outputs
          = .error (.invalid_argument "Negative value found in outputQuantities") := by
        simp only [Formula.new, hany, hanyo, if_true, if_false, Bool.false_eq_true]
      rw [hnew]
      refine ⟨⟨fun _ => Or.inr ho, fun _ => ⟨_, rfl⟩⟩, ⟨fun _ => Or.inr ho, fun _ => ⟨_, rfl⟩⟩,
        fun h => absurd (Or.inr ho) h, fun f hf => by cases hf⟩
    · have hanyo : outputs.any (fun c => decide (c.2 < 0)) = false := by
        rw [Bool.eq_false_iff]
        intro h
        obtain ⟨c, hc, hneg⟩ := List.any_eq_true.1 h
        exact ho ⟨c, hc, by simpa using hneg⟩
      have hnew : Formula.new inputs outputs = .ok ⟨inputs, outputs, 0⟩ := by
        simp only [Formula.new, hany, hanyo, if_false, Bool.false_eq_true]
      rw [hnew]
      refine ⟨⟨fun h => ?_, fun h => ?_⟩, ⟨fun h => ?_, fun h => ?_⟩, fun _ => rfl, ?_⟩
      · obtain ⟨w, hw⟩ := h; cases hw
      · rcases h with h | h
        · exact absurd h hi
        · exact absurd h ho
      · obtain ⟨w, hw⟩ := h; cases hw
      · rcases h with h | h
        · exact absurd h hi
        · exact absurd h ho
      · intro f hf
        injection hf with hf
        subst hf
        exact ⟨rfl, rfl, rfl⟩

/-! Stockpile operations -/

/-- C14 (counterexample): on a new ledger `ConsumeResource("Water", 0)` returns false,
although the current quantity of Water, 0 for the absent name, is `>= 0`. -/
theorem consume_absent_zero_refused :
    ¬ ((Stockpile.new.ConsumeResource "Water" 0).1 = true
        ↔ Stockpile.new.GetQuantity "Water" ≥ 0) := by
  decide

/-- A `ConsumeResource` call with a non-negative quantity never overflows. -/
theorem Stockpile.consumeFits_of_nonneg (s : Stockpile) (name : String) (quantity : Int)
    (hq : 0 ≤ quantity) : s.consumeFits name quantity = true := by
  unfold Stockpile.consumeFits
  cases hflag : (s.ConsumeResource name quantity).1 with
  | false => rfl
  | true =>
    have hge := ((Stockpile.consume_flag s name quantity).1 hflag).2
    have hfit := Stockpile.getQuantity_fits s name
    simp only [Bool.not_true, Bool.false_or, decide_eq_true_eq]
    unfold fitsInt INT_MIN INT_MAX at hfit ⊢
    omega

/-- The quantity of `name` after a `ConsumeResource` call that does not overflow. -/
theorem Stockpile.consume_same_of_fits (s : Stockpile) (name : String) (quantity : Int)
    (hflag : (s.ConsumeResource name quantity).1 = true)
    (hfit : fitsInt (s.GetQuantity name - quantity)) :
    (s.ConsumeResource name quantity).2.GetQuantity name = s.GetQuantity name - quantity := by
  rw [Stockpile.consume_same_wrap s name quantity hflag, wrapInt_of_fits _ hfit]

/-- C14 (amended): `ConsumeResource(name, qty)` returns true exactly when `name` has an
entry in the ledger and the quantity of that entry is `>= qty`; so for a name that has an
entry, and for every `qty > 0`, it returns true exactly when the current quantity (0 when
absent) is `>= qty`. When it returns true the quantity of `name` is lower by exactly `qty`
provided the difference is a value of the 32-bit `int`, which it always is for `qty >= 0`;
when it returns false the ledger is unchanged; in both cases the quantities of all other
names and the result log are unchanged. -/
theorem consume_spec (s : Stockpile) (name : String) (quantity : Int) :
    ((s.ConsumeResource name quantity).1 = true
        ↔ (s.resources name ≠ none ∧ s.GetQuantity name ≥ quantity))
      ∧ ((s.resources name ≠ none ∨ 0 < quantity) →
          ((s.ConsumeResource name quantity).1 = true ↔ s.GetQuantity name ≥ quantity))
      ∧ ((s.ConsumeResource name quantity).1 = true →
          fitsInt (s.GetQuantity name - quantity) →
          (s.ConsumeResource name quantity).2.GetQuantity name = s.GetQuantity name - quantity)
      ∧ ((s.ConsumeResource name quantity).1 = true → 0 ≤ quantity →
          (s.ConsumeResource name quantity).2.GetQuantity name = s.GetQuantity name - quantity)
      ∧ ((s.ConsumeResource name quantity).1 = false → (s.ConsumeResource name quantity).2 = s)
      ∧ (∀ m, m ≠ name →
          (s.ConsumeResource name quantity).2.GetQuantity m = s.GetQuantity m)
      ∧ (s.ConsumeResource name quantity).2.applyResults = s.applyResults := by
  refine ⟨Stockpile.consume_flag s name quantity, ?_,
    Stockpile.consume_same_of_fits s name quantity, ?_,
    Stockpile.consume_refused s name quantity,
    fun m hm => Stockpile.consume_other s name quantity m hm,
    Stockpile.consume_applyResults s name quantity⟩
  · intro h
    rw [Stockpile.consume_flag]
    constructor
    · exact fun hh => hh.2
    · intro hge
      refine ⟨?_, hge⟩
      rcases h with h | h
      · exact h
      · intro hnone
        have hg : s.GetQuantity name = 0 := by simp [Stockpile.GetQuantity, hnone]
        omega
  · intro hflag hq
    have hfit : fitsInt (s.GetQuantity name - quantity) := by
      have h := Stockpile.consumeFits_of_nonneg s name quantity hq
      unfold Stockpile.consumeFits at h
      simpa [hflag] using h
    exact Stockpile.consume_same_of_fits s name quantity hflag hfit

/-- After a `ConsumeResource` call that does not overflow the quantities are non-negative
when they were before. -/
theorem Stockpile.consume_nonneg_of_fits (s : Stockpile) (name : String) (quantity : Int)
    (hs : ∀ n, 0 ≤ s.GetQuantity n) (hfit : s.consumeFits name quantity = true) :
    ∀ n, 0 ≤ (s.ConsumeResource name quantity).2.GetQuantity n := by
  intro n
  by_cases hn : n = name
  · subst hn
    cases hflag : (s.ConsumeResource n quantity).1 with
    | false =>
      rw [Stockpile.consume_refused s n quantity hflag]
      exact hs n
    | true =>
      have hf : fitsInt (s.GetQuantity n - quantity) := by
        unfold Stockpile.consumeFits at hfit
        simpa [hflag] using hfit
      rw [Stockpile.consume_same_of_fits s n quantity hflag hf]
      have hge := ((Stockpile.consume_flag s n quantity).1 hflag).2
      omega
  · rw [Stockpile.consume_other s name quantity n hn]
    exact hs n

/-- C15: on a ledger whose quantities are all non-negative, after `ConsumeResource(name,
qty)` with `qty >= 0` every quantity of the ledger is still non-negative: the request is
carried out only when the entry holds at least `qty`, otherwise nothing changes. -/
theorem consume_keeps_nonneg (s : Stockpile) (name : String) (quantity : Int)
    (hs : ∀ n, 0 ≤ s.GetQuantity n) (hq : 0 ≤ quantity) :
    ∀ n, 0 ≤ (s.ConsumeResource name quantity).2.GetQuantity n :=
  Stockpile.consume_nonneg_of_fits s name quantity hs
    (Stockpile.consumeFits_of_nonneg s name quantity hq)

/-- Witness of C15: consuming Water 2, then Water 1 (refused), on the ledger Water 2,
Carbon 2, Sunlight 1: Water stays at 0. -/
theorem consume_keeps_nonneg_witness :
    0 ≤ (glucoseLedger.ConsumeResource "Water" 2).2.GetQuantity "Water"
      ∧ 0 ≤ ((glucoseLedger.ConsumeResource "Water" 2).2.ConsumeResource
          "Water" 1).2.GetQuantity "Water"
      ∧ ((glucoseLedger.ConsumeResource "Water" 2).2.ConsumeResource
          "Water" 1).2.GetQuantity "Water" = 0 := by
  have hled : ∀ n, 0 ≤ glucoseLedger.GetQuantity n := by
    intro n
    unfold glucoseLedger Stockpile.AddResource Stockpile.new Stockpile.GetQuantity
    dsimp only
    split_ifs <;> simp <;> decide
  have h1 := consume_keeps_nonneg glucoseLedger "Water" 2 hled (by decide)
  exact ⟨h1 "Water", consume_keeps_nonneg _ "Water" 1 h1 (by decide) "Water", by decide⟩

/-- The quantity of `name` after `AddResource`: the exact sum wrapped into `int`. -/
theorem Stockpile.add_same_wrap (s : Stockpile) (name : String) (quantity : Int) :
    (s.AddResource name quantity).GetQuantity name
      = wrapInt (s.GetQuantity name + quantity) := by
  rw [← Stockpile.getD_eq_getQuantity s name]
  simp [Stockpile.AddResource, Stockpile.GetQuantity]

theorem Stockpile.add_same (s : Stockpile) (name : String) (quantity : Int)
    (hfit : fitsInt (s.GetQuantity name + quantity)) :
    (s.AddResource name quantity).GetQuantity name = s.GetQuantity name + quantity := by
  rw [Stockpile.add_same_wrap, wrapInt_of_fits _ hfit]

theorem Stockpile.add_other (s : Stockpile) (name : String) (quantity : Int) (m : String)
    (hm : m ≠ name) : (s.AddResource name quantity).GetQuantity m = s.GetQuantity m := by
  simp [Stockpile.AddResource, Stockpile.GetQuantity, hm]

/-- The quantities after a deduction loop without overflow are non-negative when they were
before. -/
theorem deduct_keeps_nonneg (l : List (String × Int)) (s : Stockpile)
    (hs : ∀ n, 0 ≤ s.GetQuantity n) (hfit : deductFits l s = true) :
    ∀ n, 0 ≤ (l.foldl (fun (s : Stockpile) c => (s.ConsumeResource c.1 c.2).2) s).GetQuantity n := by
  induction l generalizing s with
  | nil => exact hs
  | cons c t ih =>
    simp only [deductFits, Bool.and_eq_true] at hfit
    simp only [List.foldl_cons]
    exact ih _ (Stockpile.consume_nonneg_of_fits s c.1 c.2 hs hfit.1) hfit.2

/-- The deduction loop over input cells with non-negative quantities never overflows. -/
theorem deductFits_of_valid (l : List (String × Int)) (s : Stockpile)
    (hvalid : ∀ c ∈ l, 0 ≤ c.2) : deductFits l s = true := by
  induction l generalizing s with
  | nil => rfl
  | cons c t ih =>
    simp only [deductFits, Bool.and_eq_true]
    exact ⟨Stockpile.consumeFits_of_nonneg s c.1 c.2 (hvalid c (List.mem_cons_self _ _)),
      ih _ (fun d hd => hvalid d (List.mem_cons_of_mem _ hd))⟩

theorem ledgerStep_keeps_nonneg (s : Stockpile) (op : LedgerOp)
    (hs : ∀ n, 0 ≤ s.GetQuantity n) (hop : addsNonneg [op] = true)
    (hfit : ledgerStepFits s op = true) :
    ∀ n, 0 ≤ (ledgerStep s op).GetQuantity n := by
  cases op with
  | AddResource name quantity =>
    have hq : 0 ≤ quantity := by simpa [addsNonneg] using hop
    have hf : fitsInt (s.GetQuantity name + quantity) := by
      simpa [ledgerStepFits] using hfit
    intro n
    by_cases hn : n = name
    · subst hn
      simp only [ledgerStep, Stockpile.add_same s n quantity hf]
      have := hs n
      omega
    · simp only [ledgerStep, Stockpile.add_other _ _ _ _ hn]
      exact hs n
  | ConsumeResource name quantity =>
    exact Stockpile.consume_nonneg_of_fits s name quantity hs hfit
  | StoreFormulaResult result => exact hs
  | Apply plan chance =>
    by_cases hex : plan._currentStep ≥ plan.size
    · intro n
      simp only [ledgerStep, ExecutablePlan.Apply, hex, if_true]
      exact hs n
    · cases hav : ExecutablePlan.resourcesAvailable
          (readAt plan.formulas plan._currentStep) s with
      | false =>
        intro n
        simp only [ledgerStep, ExecutablePlan.Apply, hex, hav, if_false, Bool.not_false,
          if_true]
        exact hs n
      | true =>
        have hsucc : (plan.Apply s chance).succeeded = true := by
          simp [ExecutablePlan.Apply, Outcome.succeeded, hex, hav]
        have hdf : deductFits (readAt plan.formulas plan._currentStep).inputs s = true := by
          simpa [ledgerStepFits, hsucc] using hfit
        have hst : (plan.Apply s chance).state.2
            = (ExecutablePlan.deductResources (readAt plan.formulas plan._currentStep)
                s).StoreFormulaResult
                ((readAt plan.formulas plan._currentStep).Apply chance) := by
          simp [ExecutablePlan.Apply, hex, hav]
        intro n
        show 0 ≤ ((plan.Apply s chance).state.2).GetQuantity n
        rw [hst]
        show 0 ≤ (ExecutablePlan.deductResources _ s).GetQuantity n
        rw [ExecutablePlan.deductResources_eq]
        exact deduct_keeps_nonneg _ s hs hdf n

theorem addsNonneg_cons (op : LedgerOp) (ops : List LedgerOp) :
    addsNonneg (op :: ops) = (addsNonneg [op] && addsNonneg ops) := by
  cases op <;> simp [addsNonneg]

theorem runLedgerOps_keeps_nonneg (ops : List LedgerOp) (s : Stockpile)
    (hs : ∀ n, 0 ≤ s.GetQuantity n) (hops : addsNonneg ops = true)
    (hfit : runFits s ops = true) :
    ∀ n, 0 ≤ (runLedgerOps s ops).GetQuantity n := by
  induction ops generalizing s with
  | nil => exact hs
  | cons op ops ih =>
    rw [addsNonneg_cons, Bool.and_eq_true] at hops
    simp only [runFits, Bool.and_eq_true] at hfit
    exact ih (ledgerStep s op) (ledgerStep_keeps_nonneg s op hs hops.1 hfit.1) hops.2 hfit.2

/-- C16 (counterexample): `AddResource("Water", -5)` on a new ledger leaves Water at -5. -/
theorem add_negative_quantity_reachable :
    ¬ (0 ≤ (runLedgerOps Stockpile.new [.AddResource "Water" (-5)]).GetQuantity "Water") := by
  decide

/-- C16 (amended): in every ledger state reached from a new `Stockpile` by a sequence of
`AddResource` calls with quantity arguments `>= 0` and of `ConsumeResource`,
`StoreFormulaResult` and `ExecutablePlan::Apply` calls with arbitrary arguments, in a run
without signed overflow, every resource quantity is non-negative. -/
theorem reachable_ledger_nonneg (ops : List LedgerOp) (hops : addsNonneg ops = true)
    (hfit : runFits Stockpile.new ops = true) :
    ∀ n, 0 ≤ (runLedgerOps Stockpile.new ops).GetQuantity n := by
  apply runLedgerOps_keeps_nonneg ops _ _ hops hfit
  intro n
  simp [Stockpile.new, Stockpile.GetQuantity]

/-- Witness of C16 (amended): the ledger of simulator.cpp, one `Apply` of the two-recipe plan,
a consumption with a negative argument, a refused consumption and a log entry; Water ends
at 0 and Carbon at 4. -/
theorem reachable_ledger_nonneg_witness :
    0 ≤ (runLedgerOps Stockpile.new
        [.AddResource "Water" 2, .AddResource "Carbon" 2, .AddResource "Sunlight" 1,
          .Apply (ExecutablePlan.new [glucoseFormula, oxygenFormula]) 60,
          .ConsumeResource "Carbon" (-3), .ConsumeResource "Water" 7,
          .StoreFormulaResult "done"]).GetQuantity "Water"
      ∧ 0 ≤ (runLedgerOps Stockpile.new
        [.AddResource "Water" 2, .AddResource "Carbon" 2, .AddResource "Sunlight" 1,
          .Apply (ExecutablePlan.new [glucoseFormula, oxygenFormula]) 60,
          .ConsumeResource "Carbon" (-3), .ConsumeResource "Water" 7,
          .StoreFormulaResult "done"]).GetQuantity "Carbon"
      ∧ (runLedgerOps Stockpile.new
        [.AddResource "Water" 2, .AddResource "Carbon" 2, .AddResource "Sunlight" 1,
          .Apply (ExecutablePlan.new [glucoseFormula, oxygenFormula]) 60,
          .ConsumeResource "Carbon" (-3), .ConsumeResource "Water" 7,
          .StoreFormulaResult "done"]).GetQuantity "Carbon" = 4 :=
  ⟨reachable_ledger_nonneg
      [.AddResource "Water" 2, .AddResource "Carbon" 2, .AddResource "Sunlight" 1,
        .Apply (ExecutablePlan.new [glucoseFormula, oxygenFormula]) 60,
        .ConsumeResource "Carbon" (-3), .ConsumeResource "Water" 7,
        .StoreFormulaResult "done"] (by decide) (by decide) "Water",
    reachable_ledger_nonneg
      [.AddResource "Water" 2, .AddResource "Carbon" 2, .AddResource "Sunlight" 1,
        .Apply (ExecutablePlan.new [glucoseFormula, oxygenFormula]) 60,
        .ConsumeResource "Carbon" (-3), .ConsumeResource "Water" 7,
        .StoreFormulaResult "done"] (by decide) (by decide) "Carbon",
    by decide⟩

/-- C17 (counterexample): on a ledger holding Gold 2147483647, the largest `int`,
`AddResource("Gold", 1)` leaves Gold at -2147483648, not at the previous quantity plus 1. -/
theorem add_overflow_wraps :
    brimLedger.GetQuantity "Gold" = 2147483647
      ∧ (brimLedger.AddResource "Gold" 1).GetQuantity "Gold" = -2147483648
      ∧ ¬ ((brimLedger.AddResource "Gold" 1).GetQuantity "Gold"
            = brimLedger.GetQuantity "Gold" + 1) := by
  decide

/-- C17 (amended): `AddResource(n, q)` is an additive upsert on the 32-bit `int`:
afterwards `GetQuantity(n)` is the previous `GetQuantity(n)` (0 when `n` had no entry) plus
`q` whenever that sum is a value of `int` (in every case it is that sum wrapped into the
range of `int`), `GetQuantity` of every other name and the result log are unchanged; a new
ledger reports 0 for every name, and after `AddResource("Water", 3)`,
`AddResource("Carbon", 2)` it reports Water 3 and Carbon 2. -/
theorem addResource_spec (s : Stockpile) (name : String) (quantity : Int) :
    (fitsInt (s.GetQuantity name + quantity) →
        (s.AddResource name quantity).GetQuantity name = s.GetQuantity name + quantity)
      ∧ (s.AddResource name quantity).GetQuantity name
          = wrapInt (s.GetQuantity name + quantity)
      ∧ (∀ m, m ≠ name → (s.AddResource name quantity).GetQuantity m = s.GetQuantity m)
      ∧ (s.AddResource name quantity).applyResults = s.applyResults
      ∧ (∀ m, Stockpile.new.GetQuantity m = 0)
      ∧ (fitsInt quantity → (Stockpile.new.AddResource name quantity).GetQuantity name = quantity)
      ∧ ((Stockpile.new.AddResource "Water" 3).AddResource "Carbon" 2).GetQuantity "Water" = 3
      ∧ ((Stockpile.new.AddResource "Water" 3).AddResource "Carbon" 2).GetQuantity "Carbon" = 2 := by
  refine ⟨Stockpile.add_same s name quantity, Stockpile.add_same_wrap s name quantity,
    fun m hm => Stockpile.add_other s name quantity m hm,
    rfl, fun m => rfl, fun hq => ?_, by decide, by decide⟩
  have h0 : Stockpile.new.GetQuantity name = 0 := rfl
  rw [Stockpile.add_same_wrap, h0, zero_add, wrapInt_of_fits _ hq]

/-- C18: with exact integers, `AddResource(n, a)` followed by `AddResource(m, b)` gives the
same quantity for every name (and the same log) as `AddResource(m, b)` followed by
`AddResource(n, a)`; and `AddResource(n, a)` followed by `AddResource(n, b)` gives the same
quantity for every name as the single call `AddResource(n, a + b)`. -/
theorem addResource_comm_assoc (s : Stockpile) (n m : String) (a b : Int) :
    (∀ k, ((s.AddResource n a).AddResource m b).GetQuantity k
        = ((s.AddResource m b).AddResource n a).GetQuantity k)
      ∧ ((s.AddResource n a).AddResource m b).applyResults
        = ((s.AddResource m b).AddResource n a).applyResults
      ∧ (∀ k, ((s.AddResource n a).AddResource n b).GetQuantity k
        = (s.AddResource n (a + b)).GetQuantity k) := by
  refine ⟨fun k => ?_, rfl, fun k => ?_⟩
  · by_cases hnm : n = m
    · subst hnm
      by_cases hk : k = n
      · subst hk
        simp only [Stockpile.add_same_wrap, wrapInt_add_wrapInt]
        congr 1
        omega
      · simp only [Stockpile.add_other _ _ _ _ hk]
    · by_cases hkn : k = n
      · subst hkn
        rw [Stockpile.add_other _ _ _ _ hnm, Stockpile.add_same_wrap, Stockpile.add_same_wrap,
          Stockpile.add_other _ _ _ _ hnm]
      · by_cases hkm : k = m
        · subst hkm
          rw [Stockpile.add_same_wrap, Stockpile.add_other _ _ _ _ hkn,
            Stockpile.add_other _ _ _ _ hkn, Stockpile.add_same_wrap]
        · simp only [Stockpile.add_other _ _ _ _ hkn, Stockpile.add_other _ _ _ _ hkm]
  · by_cases hk : k = n
    · subst hk
      simp only [Stockpile.add_same_wrap, wrapInt_add_wrapInt]
      congr 1
      omega
    · simp only [Stockpile.add_other _ _ _ _ hk]

/-! Plan::Replace, Plan::Add followed by Plan::Remove -/

/-- C19: on a plan whose count is within its allocated array, `Plan::Replace` with
`0 <= index < count` returns normally, the recipe at `index` is the given one, and every
other cell of the array, the count and the capacity are as before; with an index outside
`[0, count)` it throws the out-of-range error and the plan is unchanged. -/
theorem plan_replace_spec (p : Plan) (index : Int) (formula : Formula)
    (hcap : p.size ≤ p.formulas.length) :
    ((0 ≤ index ∧ index < p.size) →
        (p.Replace index formula).result = .ok ()
          ∧ readAt (p.Replace index formula).state.formulas index = formula
          ∧ (∀ j, j ≠ index →
              readAt (p.Replace index formula).state.formulas j = readAt p.formulas j)
          ∧ (p.Replace index formula).state.formulas.length = p.formulas.length
          ∧ (p.Replace index formula).state.size = p.size
          ∧ (p.Replace index formula).state.capacity = p.capacity)
      ∧ ((index < 0 ∨ index ≥ p.size) →
          (p.Replace index formula).result = .error (.out_of_range "Index out of range")
            ∧ (p.Replace index formula).state = p) := by
  constructor
  · intro hin
    have hno : ¬ (index < 0 ∨ index ≥ p.size) := by omega
    have hst : (p.Replace index formula).state
        = { p with formulas := writeAt p.formulas index formula } := by
      simp [Plan.Replace, hno]
    refine ⟨by simp [Plan.Replace, hno], ?_, ?_, ?_, ?_, ?_⟩
    · rw [hst]; exact readAt_writeAt_same _ _ _ (by omega) (by omega)
    · intro j hj
      rw [hst]; exact readAt_writeAt_other _ _ _ _ hj
    · rw [hst]; exact writeAt_length _ _ _
    · rw [hst]
    · rw [hst]
  · intro hout
    simp [Plan.Replace, hout]

/-- Witness of C19: replacing index 1 of the two-recipe plan of simulator.cpp, and index 2,
which is out of range. -/
theorem plan_replace_spec_witness :
    ((Plan.new [glucoseFormula, oxygenFormula]).Replace 1 thirstyFormula).result = .ok ()
      ∧ readAt ((Plan.new [glucoseFormula, oxygenFormula]).Replace 1 thirstyFormula).state.formulas 1
          = thirstyFormula
      ∧ readAt ((Plan.new [glucoseFormula, oxygenFormula]).Replace 1 thirstyFormula).state.formulas 0
          = glucoseFormula
      ∧ ((Plan.new [glucoseFormula, oxygenFormula]).Replace 2 thirstyFormula).result
          = .error (.out_of_range "Index out of range") :=
  have h := (plan_replace_spec (Plan.new [glucoseFormula, oxygenFormula]) 1 thirstyFormula
    (by decide)).1 (by decide)
  have h2 := (plan_replace_spec (Plan.new [glucoseFormula, oxygenFormula]) 2 thirstyFormula
    (by decide)).2 (by decide)
  ⟨h.1, h.2.1, h.2.2.1 0 (by decide), h2.1⟩

theorem Formula.eq_self (f : Formula) : f.eq f = true := by
  simp [Formula.eq]

/-- `Plan::operator==` holds as soon as the counts agree and the cells below the count hold
the same formulas. -/
theorem Plan.eq_of_cells (p q : Plan) (hsize : p.size = q.size)
    (hcells : ∀ i : Int, 0 ≤ i → i < p.size → readAt p.formulas i = readAt q.formulas i) :
    p.eq q = true := by
  unfold Plan.eq
  rw [if_neg (by simpa using hsize)]
  rw [List.all_eq_true]
  intro i hi
  have hi' : i < p.size.toNat := List.mem_range.1 hi
  rw [hcells i (by omega) (by omega)]
  exact Formula.eq_self _

/-- The cells below the old count after `Plan::Add`, and the new cell. -/
theorem Plan.Add_read (p : Plan) (formula : Formula) (h : p.WF) :
    readAt (p.Add formula).formulas p.size = formula
      ∧ (∀ i : Int, 0 ≤ i → i < p.size →
          readAt (p.Add formula).formulas i = readAt p.formulas i) := by
  obtain ⟨h0, h1, h2⟩ := h
  unfold Plan.Add
  split
  next hfull =>
    have hlen : (p.ResizeIfNeeded.formulas.length : Int) = p.ResizeIfNeeded.capacity :=
      (Plan.ResizeIfNeeded_WF p ⟨h0, h1, h2⟩ hfull).1.2.2
    have hlt : p.ResizeIfNeeded.size < p.ResizeIfNeeded.capacity :=
      (Plan.ResizeIfNeeded_WF p ⟨h0, h1, h2⟩ hfull).2
    have hsz : p.ResizeIfNeeded.size = p.size := rfl
    constructor
    · show readAt (writeAt p.ResizeIfNeeded.formulas p.ResizeIfNeeded.size formula) p.size
        = formula
      rw [hsz]
      exact readAt_writeAt_same _ _ _ h0 (by omega)
    · intro i hi0 hi
      show readAt (writeAt p.ResizeIfNeeded.formulas p.ResizeIfNeeded.size formula) i
        = readAt p.formulas i
      rw [hsz, readAt_writeAt_other _ _ _ _ (by omega)]
      have hread := copyLoop_read p.formulas p.size.toNat
        (List.replicate (if p.capacity = 0 then (1 : Int) else p.capacity * 2).toNat default) i
      have hcond : 0 ≤ i ∧ i < (p.size.toNat : Int)
          ∧ i < ((List.replicate (if p.capacity = 0 then (1 : Int) else p.capacity * 2).toNat
              (default : Formula)).length : Int) := by
        rw [List.length_replicate]
        split <;> omega
      rw [if_pos hcond] at hread
      exact hread
  next hfull =>
    constructor
    · show readAt (writeAt p.formulas p.size formula) p.size = formula
      exact readAt_writeAt_same _ _ _ h0 (by omega)
    · intro i hi0 hi
      show readAt (writeAt p.formulas p.size formula) i = readAt p.formulas i
      exact readAt_writeAt_other _ _ _ _ (by omega)

/-- C20: for every plan satisfying the class invariant (count between 0 and the capacity,
the capacity being the length of the array; this covers the empty plan and a plan with
count = capacity) and every recipe, `Add` followed by `Remove` gives a plan with the original
count and the original recipes at the original indices, equal to the original plan under
`operator==`. -/
theorem add_remove_restores (p : Plan) (formula : Formula) (h : p.WF) :
    (p.Add formula).Remove.size = p.size
      ∧ (∀ i : Int, 0 ≤ i → i < p.size →
          readAt (p.Add formula).Remove.formulas i = readAt p.formulas i)
      ∧ (p.Add formula).Remove.eq p = true := by
  have hpos : (p.Add formula).size > 0 := by
    rw [Plan.Add_size]
    have := h.1
    omega
  have hrem : (p.Add formula).Remove
      = { p.Add formula with size := (p.Add formula).size - 1 } := by
    simp [Plan.Remove, hpos]
  have hsize : (p.Add formula).Remove.size = p.size := by
    rw [hrem]
    show (p.Add formula).size - 1 = p.size
    rw [Plan.Add_size]
    omega
  have hcells : ∀ i : Int, 0 ≤ i → i < p.size →
      readAt (p.Add formula).Remove.formulas i = readAt p.formulas i := by
    intro i hi0 hi
    rw [hrem]
    exact (Plan.Add_read p formula h).2 i hi0 hi
  exact ⟨hsize, hcells, Plan.eq_of_cells _ _ hsize (fun i hi0 hi => hcells i hi0 (hsize ▸ hi))⟩

/-- Witness of C20: the empty plan (count = capacity = 0), the two-recipe plan of
simulator.cpp (count = capacity = 2) and a plan with spare capacity. -/
theorem add_remove_restores_witness :
    ((Plan.new []).Add thirstyFormula).Remove.eq (Plan.new []) = true
      ∧ ((Plan.new [glucoseFormula, oxygenFormula]).Add thirstyFormula).Remove.eq
          (Plan.new [glucoseFormula, oxygenFormula]) = true
      ∧ ((Plan.new [glucoseFormula, oxygenFormula]).Add thirstyFormula).Remove.size = 2
      ∧ (roomyPlan.Add thirstyFormula).Remove.eq roomyPlan = true :=
  ⟨(add_remove_restores (Plan.new []) thirstyFormula (Plan.new_WF [])).2.2,
    (add_remove_restores (Plan.new [glucoseFormula, oxygenFormula]) thirstyFormula
      (Plan.new_WF _)).2.2,
    (add_remove_restores (Plan.new [glucoseFormula, oxygenFormula]) thirstyFormula
      (Plan.new_WF _)).1,
    (add_remove_restores roomyPlan thirstyFormula ⟨by decide, by decide, by decide⟩).2.2⟩

/-! Formula::Apply -/

theorem intercalate_go_snoc (s : String) (l : List String) (acc a : String) :
    String.intercalate.go acc s (l ++ [a]) = String.intercalate.go acc s l ++ s ++ a := by
  induction l generalizing acc with
  | nil => simp [String.intercalate.go]
  | cons b t ih => simp [String.intercalate.go, ih]

theorem intercalate_snoc (s : String) (l : List String) (a : String) (hl : l ≠ []) :
    s.intercalate (l ++ [a]) = s.intercalate l ++ s ++ a := by
  cases l with
  | nil => exact absurd rfl hl
  | cons b t => simp [String.intercalate, intercalate_go_snoc]

/-- The text loop of `Formula::Apply` after `k` of its `n` rounds: the first `k` items
joined by ", ", followed by ", " when more items are to come. -/
theorem joinLoop_prefix (g : Nat → String) (n k : Nat) (hk : k ≤ n) :
    (List.range k).foldl
        (fun (result : String) (i : Nat) =>
          if (i : Int) < (n : Int) - 1 then result ++ g i ++ ", " else result ++ g i) ""
      = if k = 0 then "" else
          if k < n then ", ".intercalate ((List.range k).map g) ++ ", "
          else ", ".intercalate ((List.range k).map g) := by
  induction k with
  | zero => simp
  | succ k ih =>
    rw [List.range_succ, List.foldl_append, ih (by omega)]
    simp only [List.foldl_cons, List.foldl_nil, List.map_append, List.map_cons, List.map_nil]
    rw [if_neg (Nat.succ_ne_zero k)]
    have hkn : k < n := by omega
    by_cases hk0 : k = 0
    · subst hk0
      simp only [List.range_zero, List.map_nil, List.nil_append, if_true]
      by_cases h1 : (0 + 1 : Nat) < n
      · have : ((0 : Nat) : Int) < (n : Int) - 1 := by omega
        rw [if_pos this, if_pos h1]
        simp [String.intercalate, String.intercalate.go]
      · have : ¬ ((0 : Nat) : Int) < (n : Int) - 1 := by omega
        rw [if_neg this, if_neg h1]
        simp [String.intercalate, String.intercalate.go]
    · rw [if_neg hk0, if_pos hkn]
      have hne : (List.range k).map g ≠ [] := by
        cases k with
        | zero => exact absurd rfl hk0
        | succ j => simp [List.range_succ]
      rw [intercalate_snoc _ _ _ hne]
      by_cases h1 : k + 1 < n
      · have : (k : Int) < (n : Int) - 1 := by omega
        rw [if_pos this, if_pos h1]
      · have : ¬ (k : Int) < (n : Int) - 1 := by omega
        rw [if_neg this, if_neg h1]

theorem range_map_cells {β : Type} (l : List (String × Int)) (h : String × Int → β) :
    (List.range l.length).map (fun i => h (l.getD i default)) = l.map h := by
  apply List.ext_getElem
  · simp
  · intro n h1 h2
    have hn : n < l.length := by simpa using h2
    simp [List.getD_eq_getElem?_getD, hn]

/-- `Formula::Apply` is the ", "-joined list of the rendered output cells. -/
theorem Formula.Apply_eq_intercalate (f : Formula) (chance : Int) :
    f.Apply chance
      = ", ".intercalate (f.outputs.map (fun c =>
          toString (Formula.castInt c.2 (f.DetermineMultiplier chance)) ++ " " ++ c.1)) := by
  have hloop := joinLoop_prefix
    (fun i => toString (Formula.castInt (f.outputs.getD i default).2
      (f.DetermineMultiplier chance)) ++ " " ++ (f.outputs.getD i default).1)
    f.outputs.length f.outputs.length (le_refl _)
  rw [range_map_cells f.outputs (fun c =>
    toString (Formula.castInt c.2 (f.DetermineMultiplier chance)) ++ " " ++ c.1)] at hloop
  have hApply : f.Apply chance = (List.range f.outputs.length).foldl
      (fun (result : String) (i : Nat) =>
        if (i : Int) < (f.outputs.length : Int) - 1 then
          result ++ (toString (Formula.castInt (f.outputs.getD i default).2
            (f.DetermineMultiplier chance)) ++ " " ++ (f.outputs.getD i default).1) ++ ", "
        else result ++ (toString (Formula.castInt (f.outputs.getD i default).2
            (f.DetermineMultiplier chance)) ++ " " ++ (f.outputs.getD i default).1)) "" := by
    simp only [Formula.Apply, Formula.outputSize, Int.toNat_ofNat]
  rw [hApply, hloop]
  by_cases h0 : f.outputs.length = 0
  · have hnil : f.outputs = [] := List.length_eq_zero.1 h0
    rw [if_pos h0, hnil]
    rfl
  · rw [if_neg h0, if_neg (lt_irrefl _)]

theorem Formula.DetermineMultiplier_cases (f : Formula) (chance : Int) :
    f.DetermineMultiplier chance = Formula.ZeroOutputMultiplier
      ∨ f.DetermineMultiplier chance = Formula.ReducedOutputMultiplier
      ∨ f.DetermineMultiplier chance = Formula.StandardOutputMultiplier
      ∨ f.DetermineMultiplier chance = Formula.EnhancedOutputMultiplier := by
  unfold Formula.DetermineMultiplier
  simp only []
  split_ifs <;> simp

/-! Double arithmetic on the values of `Formula::Apply` -/

theorem bitLength_le (fuel a n : Nat) (hf : a ≤ fuel) : bitLength fuel a ≤ n ↔ a < 2 ^ n := by
  induction fuel generalizing a n with
  | zero =>
    have : a = 0 := by omega
    subst this
    simp [bitLength]
  | succ fuel ih =>
    unfold bitLength
    by_cases ha : a = 0
    · subst ha; simp
    · rw [if_neg ha]
      cases n with
      | zero => simp; omega
      | succ n =>
        have hf2 : a / 2 ≤ fuel := by omega
        rw [Nat.add_le_add_iff_right, ih (a / 2) n hf2, pow_succ]
        omega

/-- A number with at most 53 binary digits is a double: rounding leaves it as it is. -/
theorem Dbl.round_small (n e : Int) (h : n.natAbs < 2 ^ 53) : Dbl.round n e = ⟨n, e⟩ := by
  unfold Dbl.round
  have : bitLength n.natAbs n.natAbs ≤ 53 := (bitLength_le _ _ 53 (le_refl _)).2 h
  simp only [this, if_true]

theorem Dbl.ofInt_of_fits (q : Int) (hq : fitsInt q) : Dbl.ofInt q = ⟨q, 0⟩ := by
  unfold Dbl.ofInt
  apply Dbl.round_small
  unfold fitsInt INT_MIN INT_MAX at hq
  norm_num
  omega

/-- The cut of `q * 1.10` to 53 digits, whichever way it is rounded, has the integer part
of `11 q / 10`, for every `int` quantity `q >= 0` and every possible length of the cut. -/
theorem round_trunc_enhanced (k : Nat) (hk1 : 1 ≤ k) (hk : k ≤ 30) (qn q' : Nat)
    (hqn : qn ≤ 2147483647)
    (hq' : q' = qn * 2476979795053773 / 2 ^ k ∨ q' = qn * 2476979795053773 / 2 ^ k + 1) :
    q' / 2 ^ (51 - k) = 11 * qn / 10 := by
  interval_cases k <;> simp only [Nat.reduceSub, Nat.reducePow] at hq' ⊢ <;> omega

theorem Formula.castInt_zero (q : Int) : Formula.castInt q Formula.ZeroOutputMultiplier = 0 := by
  unfold Formula.castInt Dbl.mul Formula.ZeroOutputMultiplier
  simp only [mul_zero, add_zero]
  rw [Dbl.round_small 0 _ (by norm_num)]
  unfold Dbl.toInt Dbl.trunc
  have ht : (if 0 ≤ (Dbl.ofInt q).e then (0 : Int) * 2 ^ (Dbl.ofInt q).e.toNat
      else Int.tdiv 0 (2 ^ (-(Dbl.ofInt q).e).toNat)) = 0 := by
    split <;> simp
  simp only [ht]
  decide

theorem Formula.castInt_standard (q : Int) (hq : fitsInt q) :
    Formula.castInt q Formula.StandardOutputMultiplier = q := by
  unfold Formula.castInt Dbl.mul Formula.StandardOutputMultiplier
  rw [Dbl.ofInt_of_fits q hq]
  simp only [mul_one, add_zero]
  rw [Dbl.round_small q 0 (by unfold fitsInt INT_MIN INT_MAX at hq; norm_num; omega)]
  unfold Dbl.toInt Dbl.trunc
  simp [hq]

theorem Formula.castInt_reduced (q : Int) (h0 : 0 ≤ q) (hq : q ≤ INT_MAX) :
    Formula.castInt q Formula.ReducedOutputMultiplier = 3 * q / 4 := by
  have hfit : fitsInt q := ⟨by unfold INT_MIN; omega, hq⟩
  unfold INT_MAX at hq
  unfold Formula.castInt Dbl.mul Formula.ReducedOutputMultiplier
  rw [Dbl.ofInt_of_fits q hfit]
  simp only [zero_add]
  rw [Dbl.round_small (q * 3) (-2) (by norm_num; omega)]
  unfold Dbl.toInt Dbl.trunc
  have ht : (if (0 : Int) ≤ -2 then q * 3 * 2 ^ (-2 : Int).toNat
      else Int.tdiv (q * 3) (2 ^ (-(-2 : Int)).toNat)) = 3 * q / 4 := by
    rw [if_neg (by decide), show (-(-2 : Int)).toNat = 2 from rfl,
      Int.tdiv_eq_ediv (by omega) (by positivity)]
    norm_num
    omega
  simp only [ht]
  rw [if_pos]
  unfold fitsInt INT_MIN INT_MAX
  omega

/-- The truncated double product `q * 1.10` is the integer part of `11 q / 10`, for every
`int` quantity `q >= 0`. -/
theorem trunc_mul_enhanced (q : Int) (h0 : 0 ≤ q) (hq : q ≤ INT_MAX) :
    (Dbl.mul (Dbl.ofInt q) Formula.EnhancedOutputMultiplier).trunc = 11 * q / 10 := by
  have hfit : fitsInt q := ⟨by unfold INT_MIN; omega, hq⟩
  unfold INT_MAX at hq
  obtain ⟨qn, rfl⟩ := Int.eq_ofNat_of_zero_le h0
  have hqn : qn ≤ 2147483647 := by omega
  unfold Dbl.mul Formula.EnhancedOutputMultiplier
  rw [Dbl.ofInt_of_fits _ hfit]
  simp only [zero_add]
  have hnat : ((qn : Int) * 2476979795053773).natAbs = qn * 2476979795053773 := by
    have : ((qn : Int) * 2476979795053773) = ((qn * 2476979795053773 : Nat) : Int) := by
      push_cast; ring
    rw [this, Int.natAbs_ofNat]
  by_cases hsmall : qn * 2476979795053773 < 2 ^ 53
  · rw [Dbl.round_small _ _ (by rw [hnat]; exact hsmall)]
    unfold Dbl.trunc
    dsimp only
    rw [if_neg (show ¬ ((0 : Int) ≤ -51) by decide), show (-(-51 : Int)).toNat = 51 from rfl,
      Int.tdiv_eq_ediv (by positivity) (by positivity)]
    norm_num
    norm_num at hsmall
    omega
  · unfold Dbl.round
    rw [hnat]
    have hbits : ¬ bitLength (qn * 2476979795053773) (qn * 2476979795053773) ≤ 53 := by
      rw [bitLength_le _ _ 53 (le_refl _)]
      exact hsmall
    have hbits83 : bitLength (qn * 2476979795053773) (qn * 2476979795053773) ≤ 83 := by
      rw [bitLength_le _ _ 83 (le_refl _)]
      norm_num
      omega
    simp only [hbits, if_false]
    generalize hb : bitLength (qn * 2476979795053773) (qn * 2476979795053773) = b at hbits hbits83
    have hk1 : 1 ≤ b - 53 := by omega
    have hk30 : b - 53 ≤ 30 := by omega
    have hnn : ¬ ((qn : Int) * 2476979795053773 < 0) := by omega
    simp only [hnn, if_false]
    unfold Dbl.trunc
    have hneg : ¬ ((0 : Int) ≤ -51 + ((b - 53 : Nat) : Int)) := by omega
    simp only [hneg, if_false]
    have hexp : (-(-51 + ((b - 53 : Nat) : Int))).toNat = 51 - (b - 53) := by omega
    rw [hexp]
    rw [Int.tdiv_eq_ediv (by positivity) (by positivity)]
    have key := round_trunc_enhanced (b - 53) hk1 hk30 qn
      (if qn * 2476979795053773 % 2 ^ (b - 53) > 2 ^ (b - 53 - 1)
            ∨ (qn * 2476979795053773 % 2 ^ (b - 53) = 2 ^ (b - 53 - 1)
                ∧ qn * 2476979795053773 / 2 ^ (b - 53) % 2 = 1)
        then qn * 2476979795053773 / 2 ^ (b - 53) + 1
        else qn * 2476979795053773 / 2 ^ (b - 53))
      hqn (by split <;> simp)
    have hcast : ((11 : Int) * (qn : Int) / 10) = ((11 * qn / 10 : Nat) : Int) := by
      push_cast; rfl
    rw [hcast, ← key]
    push_cast
    rfl

theorem Formula.castInt_enhanced (q : Int) (h0 : 0 ≤ q) (hq : q ≤ INT_MAX)
    (hfit : 11 * q / 10 ≤ INT_MAX) :
    Formula.castInt q Formula.EnhancedOutputMultiplier = 11 * q / 10 := by
  unfold Formula.castInt Dbl.toInt
  rw [trunc_mul_enhanced q h0 hq, if_pos]
  unfold fitsInt INT_MIN
  unfold INT_MAX at hfit hq ⊢
  omega

/-- C13, the claim as stated fails: the recipe with the single output Gold 2000000000 is
validly constructed (no negative quantity), and under draw 100, which selects the enhanced
multiplier 1.10, the product 2200000000 is beyond the range of `int`; `Formula::Apply`
returns "-2147483648 Gold", which is not the floor of the quantity times any of the four
multipliers. -/
theorem apply_enhanced_exceeds_int :
    Formula.new [] [("Gold", 2000000000)] = .ok goldFormula
      ∧ (∀ c ∈ goldFormula.outputs, 0 ≤ c.2)
      ∧ goldFormula.DetermineMultiplier 100 = Formula.EnhancedOutputMultiplier
      ∧ goldFormula.Apply 100 = "-2147483648 Gold"
      ∧ ¬ ∃ m : ℚ, (m = 0 ∨ m = 3 / 4 ∨ m = 1 ∨ m = 11 / 10)
          ∧ goldFormula.Apply 100
            = ", ".intercalate
                (goldFormula.outputs.map (fun c => toString ⌊(c.2 : ℚ) * m⌋ ++ " " ++ c.1)) := by
  have happly : goldFormula.Apply 100 = "-2147483648 Gold" := by decide
  refine ⟨rfl, by decide, by decide, happly, ?_⟩
  rintro ⟨m, hm, heq⟩
  rw [happly] at heq
  have h0 : ⌊((2000000000 : Int) : ℚ) * 0⌋ = 0 := by norm_num
  have h34 : ⌊((2000000000 : Int) : ℚ) * (3 / 4)⌋ = 1500000000 := by
    rw [Int.floor_eq_iff]; norm_num
  have h1 : ⌊((2000000000 : Int) : ℚ) * 1⌋ = 2000000000 := by
    rw [Int.floor_eq_iff]; norm_num
  have h1110 : ⌊((2000000000 : Int) : ℚ) * (11 / 10)⌋ = 2200000000 := by
    rw [Int.floor_eq_iff]; norm_num
  simp only [goldFormula, List.map_cons, List.map_nil] at heq
  rcases hm with rfl | rfl | rfl | rfl
  · rw [h0] at heq; revert heq; decide
  · rw [h34] at heq; revert heq; decide
  · rw [h1] at heq; revert heq; decide
  · rw [h1110] at heq; revert heq; decide

/-- C13, amended: for a recipe whose output quantities are all non-negative `int` values and
every draw, provided that - when the draw selects the enhanced multiplier - eleven tenths of
every output quantity do not exceed the largest `int`, the call selects one multiplier `m`
among 0, 0.75, 1.0, 1.10 (the one `DetermineMultiplier` gives for the draw) and
`Formula::Apply` returns the output cells in order, each rendered as "<adjusted> <name>" and
joined by ", " (the empty string when there are no outputs), where every adjusted quantity
is `floor(quantity * m)` for that same `m`, which is 0, `floor(3q/4)`, `q` or
`floor(11q/10)`: the double product, rounded to 53 digits and then cut to `int`, has that
exact value. The call returns the text only: the stored inputs, outputs and proficiency of
the recipe are not written. -/
theorem formula_apply_spec (f : Formula) (chance : Int)
    (hvalid : ∀ c ∈ f.outputs, 0 ≤ c.2 ∧ c.2 ≤ INT_MAX)
    (hfit : f.DetermineMultiplier chance = Formula.EnhancedOutputMultiplier →
      ∀ c ∈ f.outputs, 11 * c.2 / 10 ≤ INT_MAX) :
    ∃ m : ℚ,
      ((f.DetermineMultiplier chance = Formula.ZeroOutputMultiplier
            ∧ m = 0 ∧ ∀ q : Int, ⌊(q : ℚ) * m⌋ = 0)
          ∨ (f.DetermineMultiplier chance = Formula.ReducedOutputMultiplier
            ∧ m = 3 / 4 ∧ ∀ q : Int, ⌊(q : ℚ) * m⌋ = 3 * q / 4)
          ∨ (f.DetermineMultiplier chance = Formula.StandardOutputMultiplier
            ∧ m = 1 ∧ ∀ q : Int, ⌊(q : ℚ) * m⌋ = q)
          ∨ (f.DetermineMultiplier chance = Formula.EnhancedOutputMultiplier
            ∧ m = 11 / 10 ∧ ∀ q : Int, ⌊(q : ℚ) * m⌋ = 11 * q / 10))
        ∧ f.Apply chance
            = ", ".intercalate
                (f.outputs.map (fun c => toString ⌊(c.2 : ℚ) * m⌋ ++ " " ++ c.1))
        ∧ (f.outputs = [] → f.Apply chance = "") := by
  have hfl34 : ∀ q : Int, ⌊(q : ℚ) * (3 / 4)⌋ = 3 * q / 4 := by
    intro q
    have hq : (q : ℚ) * (3 / 4) = ((3 * q : Int) : ℚ) / ((4 : Nat) : ℚ) := by
      push_cast; ring
    rw [hq, Rat.floor_intCast_div_natCast]
    rfl
  have hfl1110 : ∀ q : Int, ⌊(q : ℚ) * (11 / 10)⌋ = 11 * q / 10 := by
    intro q
    have hq : (q : ℚ) * (11 / 10) = ((11 * q : Int) : ℚ) / ((10 : Nat) : ℚ) := by
      push_cast; ring
    rw [hq, Rat.floor_intCast_div_natCast]
    rfl
  have hnil : f.outputs = [] → f.Apply chance = "" := by
    intro hnil
    rw [Formula.Apply_eq_intercalate, hnil]
    rfl
  rcases Formula.DetermineMultiplier_cases f chance with h | h | h | h
  · refine ⟨0, Or.inl ⟨h, rfl, fun q => by simp⟩, ?_, hnil⟩
    rw [Formula.Apply_eq_intercalate, h]
    congr 1
    apply List.map_congr_left
    intro c _
    rw [Formula.castInt_zero]
    simp
  · refine ⟨3 / 4, Or.inr (Or.inl ⟨h, rfl, hfl34⟩), ?_, hnil⟩
    rw [Formula.Apply_eq_intercalate, h]
    congr 1
    apply List.map_congr_left
    intro c hc
    rw [Formula.castInt_reduced c.2 (hvalid c hc).1 (hvalid c hc).2, hfl34]
  · refine ⟨1, Or.inr (Or.inr (Or.inl ⟨h, rfl, fun q => by simp⟩)), ?_, hnil⟩
    rw [Formula.Apply_eq_intercalate, h]
    congr 1
    apply List.map_congr_left
    intro c hc
    rw [Formula.castInt_standard c.2 ⟨by have := (hvalid c hc).1; unfold INT_MIN; omega,
      (hvalid c hc).2⟩]
    simp
  · refine ⟨11 / 10, Or.inr (Or.inr (Or.inr ⟨h, rfl, hfl1110⟩)), ?_, hnil⟩
    rw [Formula.Apply_eq_intercalate, h]
    congr 1
    apply List.map_congr_left
    intro c hc
    rw [Formula.castInt_enhanced c.2 (hvalid c hc).1 (hvalid c hc).2 (hfit h c hc), hfl1110]

/-- Witness of C13: the second recipe of simulator.cpp (outputs Energy 1, Oxygen 2) under a
draw of the partial band; the text is "0 Energy, 1 Oxygen". -/
theorem formula_apply_spec_witness :
    (∃ m : ℚ,
      ((oxygenFormula.DetermineMultiplier 30 = Formula.ZeroOutputMultiplier
            ∧ m = 0 ∧ ∀ q : Int, ⌊(q : ℚ) * m⌋ = 0)
          ∨ (oxygenFormula.DetermineMultiplier 30 = Formula.ReducedOutputMultiplier
            ∧ m = 3 / 4 ∧ ∀ q : Int, ⌊(q : ℚ) * m⌋ = 3 * q / 4)
          ∨ (oxygenFormula.DetermineMultiplier 30 = Formula.StandardOutputMultiplier
            ∧ m = 1 ∧ ∀ q : Int, ⌊(q : ℚ) * m⌋ = q)
          ∨ (oxygenFormula.DetermineMultiplier 30 = Formula.EnhancedOutputMultiplier
            ∧ m = 11 / 10 ∧ ∀ q : Int, ⌊(q : ℚ) * m⌋ = 11 * q / 10))
        ∧ oxygenFormula.Apply 30
            = ", ".intercalate
                (oxygenFormula.outputs.map (fun c => toString ⌊(c.2 : ℚ) * m⌋ ++ " " ++ c.1))
        ∧ (oxygenFormula.outputs = [] → oxygenFormula.Apply 30 = ""))
      ∧ oxygenFormula.Apply 30 = "0 Energy, 1 Oxygen"
      ∧ oxygenFormula.DetermineMultiplier 30 = Formula.ReducedOutputMultiplier :=
  ⟨formula_apply_spec oxygenFormula 30 (by decide) (by decide), by decide, by decide⟩

/-! Plan::Add -/

theorem Plan.Add_capacity (p : Plan) (formula : Formula) :
    (p.Add formula).capacity
      = if p.size = p.capacity then (if p.capacity = 0 then 1 else p.capacity * 2)
        else p.capacity := by
  unfold Plan.Add
  split <;> simp [Plan.ResizeIfNeeded]

/-- C21: `Plan::Add(r)` on a plan with count `n` and capacity `c`, `0 <= n <= c`, `c` being
the length of the array: afterwards the count is `n + 1`, the recipe at index `n` is `r`, the
recipes at the indices below `n` are the ones that were there, the capacity is `c` when
`n < c` and, when `n = c`, 1 if `c` was 0 and `2 * c` otherwise; the count is at most the
capacity and the capacity is the length of the array. -/
theorem plan_add_spec (p : Plan) (formula : Formula) (h : p.WF) :
    (p.Add formula).size = p.size + 1
      ∧ readAt (p.Add formula).formulas p.size = formula
      ∧ (∀ i : Int, 0 ≤ i → i < p.size →
          readAt (p.Add formula).formulas i = readAt p.formulas i)
      ∧ (p.size < p.capacity → (p.Add formula).capacity = p.capacity)
      ∧ (p.size = p.capacity →
          (p.Add formula).capacity = if p.capacity = 0 then 1 else 2 * p.capacity)
      ∧ (p.Add formula).size ≤ (p.Add formula).capacity
      ∧ ((p.Add formula).formulas.length : Int) = (p.Add formula).capacity := by
  have hwf := Plan.Add_WF p formula h
  refine ⟨Plan.Add_size p formula, (Plan.Add_read p formula h).1, (Plan.Add_read p formula h).2,
    ?_, ?_, hwf.2.1, hwf.2.2⟩
  · intro hlt
    rw [Plan.Add_capacity, if_neg (by omega)]
  · intro heq
    rw [Plan.Add_capacity, if_pos heq]
    split <;> omega

/-- Witness of C21: adding to the empty plan (capacity 0 becomes 1), to the full two-recipe
plan (capacity 2 becomes 4) and to a plan with room (capacity stays 4). -/
theorem plan_add_spec_witness :
    ((Plan.new []).Add thirstyFormula).size = 0 + 1
      ∧ readAt ((Plan.new []).Add thirstyFormula).formulas 0 = thirstyFormula
      ∧ ((Plan.new []).Add thirstyFormula).capacity = 1
      ∧ ((Plan.new [glucoseFormula, oxygenFormula]).Add thirstyFormula).capacity = 4
      ∧ readAt ((Plan.new [glucoseFormula, oxygenFormula]).Add thirstyFormula).formulas 1
          = oxygenFormula
      ∧ (roomyPlan.Add thirstyFormula).capacity = 4 :=
  have h0 := plan_add_spec (Plan.new []) thirstyFormula (Plan.new_WF [])
  have h2 := plan_add_spec (Plan.new [glucoseFormula, oxygenFormula]) thirstyFormula
    (Plan.new_WF _)
  have h4 := plan_add_spec roomyPlan thirstyFormula ⟨by decide, by decide, by decide⟩
  ⟨h0.1, h0.2.1, h0.2.2.2.2.1 (by decide), h2.2.2.2.2.1 (by decide),
    h2.2.2.1 1 (by decide) (by decide), h4.2.2.2.1 (by decide)⟩

/-! Formula::operator== and Plan::operator== -/

/-- The cell loop of `Formula::operator==` on two arrays of the same length: it finds no
difference exactly when the arrays are equal. -/
theorem cells_all_eq_iff (a b : List (String × Int)) (hlen : a.length = b.length) :
    (List.range a.length).all
        (fun i => ! (decide ((a.getD i default).1 ≠ (b.getD i default).1)
                      || decide ((a.getD i default).2 ≠ (b.getD i default).2))) = true
      ↔ a = b := by
  rw [List.all_eq_true]
  constructor
  · intro hall
    apply List.ext_getElem hlen
    intro n h1 h2
    have := hall n (List.mem_range.2 h1)
    simp only [List.getD_eq_getElem?_getD, List.getElem?_eq_getElem h1,
      List.getElem?_eq_getElem h2, Option.getD_some, Bool.not_eq_true', Bool.or_eq_false_iff,
      decide_eq_false_iff_not, not_not] at this
    exact Prod.ext this.1 this.2
  · intro hab i _
    subst hab
    simp

/-- `Formula::operator==` holds exactly when inputs, outputs and proficiency agree. -/
theorem Formula.eq_iff_fields (f g : Formula) :
    f.eq g = true
      ↔ (f.inputs = g.inputs ∧ f.outputs = g.outputs ∧ f.proficiencyLevel = g.proficiencyLevel) := by
  unfold Formula.eq
  by_cases hne : f.inputSize ≠ g.inputSize ∨ f.outputSize ≠ g.outputSize
      ∨ f.proficiencyLevel ≠ g.proficiencyLevel
  · rw [if_pos hne]
    constructor
    · intro h; cases h
    · rintro ⟨hi, ho, hp⟩
      exfalso
      rcases hne with h | h | h
      · exact h (by simp [Formula.inputSize, hi])
      · exact h (by simp [Formula.outputSize, ho])
      · exact h hp
  · rw [if_neg hne]
    simp only [not_or, not_not] at hne
    obtain ⟨hi, ho, hp⟩ := hne
    have hil : f.inputs.length = g.inputs.length := by
      simpa [Formula.inputSize] using hi
    have hol : f.outputs.length = g.outputs.length := by
      simpa [Formula.outputSize] using ho
    simp only [Formula.inputSize, Formula.outputSize, Int.toNat_ofNat, Bool.and_eq_true]
    rw [cells_all_eq_iff _ _ hil, cells_all_eq_iff _ _ hol]
    constructor
    · rintro ⟨h1, h2⟩; exact ⟨h1, h2, hp⟩
    · rintro ⟨h1, h2, _⟩; exact ⟨h1, h2⟩

theorem Formula.eq_iff_eq (f g : Formula) : f.eq g = true ↔ f = g := by
  rw [Formula.eq_iff_fields]
  constructor
  · rintro ⟨h1, h2, h3⟩
    cases f; cases g
    simp only at h1 h2 h3
    subst h1 h2 h3
    rfl
  · rintro rfl
    exact ⟨rfl, rfl, rfl⟩

/-- `Plan::operator==` holds exactly when the counts agree and the cells below the count
hold equal formulas. -/
theorem Plan.eq_iff_cells (p q : Plan) :
    p.eq q = true
      ↔ (p.size = q.size
          ∧ ∀ i : Int, 0 ≤ i → i < p.size →
              (readAt p.formulas i).eq (readAt q.formulas i) = true) := by
  unfold Plan.eq
  by_cases hs : p.size = q.size
  · rw [if_neg (by simpa using hs), List.all_eq_true]
    constructor
    · intro hall
      refine ⟨hs, fun i hi0 hi => ?_⟩
      have := hall i.toNat (List.mem_range.2 (by omega))
      rwa [Int.toNat_of_nonneg hi0] at this
    · rintro ⟨_, hcells⟩ i hi
      have hi' : i < p.size.toNat := List.mem_range.1 hi
      exact hcells i (by omega) (by omega)
  · rw [if_pos (by simpa using hs)]
    constructor
    · intro h; cases h
    · rintro ⟨h, _⟩; exact absurd h hs

/-- C22: `Plan::operator==` holds exactly when the two plans have the same count and, at
every index below the count, recipes that are equal under `Formula::operator==`, which holds
exactly when the input cells, the output cells (names and quantities, in order) and the
proficiency levels agree; the capacity plays no part; and the relation is reflexive,
symmetric and transitive. -/
theorem plan_eq_spec :
    (∀ p q : Plan, p.eq q = true
        ↔ (p.size = q.size
            ∧ ∀ i : Int, 0 ≤ i → i < p.size →
                (readAt p.formulas i).eq (readAt q.formulas i) = true))
      ∧ (∀ f g : Formula, f.eq g = true
        ↔ (f.inputs = g.inputs ∧ f.outputs = g.outputs
            ∧ f.proficiencyLevel = g.proficiencyLevel))
      ∧ (∀ (p q : Plan) (c : Int), ({ p with capacity := c } : Plan).eq q = p.eq q)
      ∧ (∀ p : Plan, p.eq p = true)
      ∧ (∀ p q : Plan, p.eq q = true → q.eq p = true)
      ∧ (∀ p q r : Plan, p.eq q = true → q.eq r = true → p.eq r = true) := by
  refine ⟨Plan.eq_iff_cells, Formula.eq_iff_fields, fun p q c => rfl, ?_, ?_, ?_⟩
  · intro p
    exact (Plan.eq_iff_cells p p).2 ⟨rfl, fun i _ _ => Formula.eq_self _⟩
  · intro p q hpq
    obtain ⟨hs, hc⟩ := (Plan.eq_iff_cells p q).1 hpq
    refine (Plan.eq_iff_cells q p).2 ⟨hs.symm, fun i hi0 hi => ?_⟩
    have := (Formula.eq_iff_eq _ _).1 (hc i hi0 (by omega))
    exact (Formula.eq_iff_eq _ _).2 this.symm
  · intro p q r hpq hqr
    obtain ⟨hs, hc⟩ := (Plan.eq_iff_cells p q).1 hpq
    obtain ⟨hs', hc'⟩ := (Plan.eq_iff_cells q r).1 hqr
    refine (Plan.eq_iff_cells p r).2 ⟨hs.trans hs', fun i hi0 hi => ?_⟩
    have h1 := (Formula.eq_iff_eq _ _).1 (hc i hi0 hi)
    have h2 := (Formula.eq_iff_eq _ _).1 (hc' i hi0 (by omega))
    exact (Formula.eq_iff_eq _ _).2 (h1.trans h2)

/-! Plan::DisplayFormulas -/

/-- C23: `Plan::DisplayFormulas` returns "No formula" for a plan of count 0; for a plan of
count `n >= 1` it returns the concatenation, for `N = 1..n` in index order, of "Formula N: ",
the `Formula::Apply` string of the `N`-th recipe under its own draw, and a newline. The call
returns the text only: the recipes and the count of the plan are not written. -/
theorem displayFormulas_spec (p : Plan) (chance : Nat → Int) :
    (p.size = 0 → p.DisplayFormulas chance = "No formula")
      ∧ (1 ≤ p.size →
          p.DisplayFormulas chance
            = String.join ((List.range p.size.toNat).map (fun i : Nat =>
                "Formula " ++ toString (i + 1) ++ ": "
                  ++ (readAt p.formulas (i : Int)).Apply (chance i) ++ "\n")))
      ∧ (Plan.new []).DisplayFormulas chance = "No formula"
      ∧ (Plan.new [glucoseFormula, oxygenFormula]).DisplayFormulas
            (fun i : Nat => 60 + 40 * (i : Int))
          = "Formula 1: 1 Glucose\nFormula 2: 1 Energy, 2 Oxygen\n" := by
  refine ⟨fun h0 => by simp [Plan.DisplayFormulas, h0], fun h1 => ?_, rfl, by decide⟩
  have hne : ¬ p.size = 0 := by omega
  unfold Plan.DisplayFormulas
  rw [if_neg hne]
  unfold String.join
  rw [List.foldl_map]

/-! Completed steps -/

/-- C24: on an executable plan satisfying the class invariant of `Plan` and with
`0 <= cursor <= count`, after any single operation (`Add`, `Remove`, `Replace` with any
index and recipe, `Apply` with any ledger, `ApplyCurrentFormula`, and prefix increment as
well), whether it returns normally or throws, every index `i` with `0 <= i < cursor` is
still below the count and holds the recipe it held before. -/
theorem completed_steps_kept (p : ExecutablePlan) (op : Op) (i : Int)
    (hwf : p.toPlan.WF) (hcur : 0 ≤ p._currentStep ∧ p._currentStep ≤ p.size)
    (hi0 : 0 ≤ i) (hi : i < p._currentStep) :
    i < (step p op).size
      ∧ readAt (step p op).formulas i = readAt p.formulas i := by
  cases op with
  | Add formula =>
    simp only [step, ExecutablePlan.Add]
    refine ⟨by rw [Plan.Add_size]; omega, ?_⟩
    exact (Plan.Add_read p.toPlan formula hwf).2 i hi0 (by omega)
  | Remove =>
    simp only [step, ExecutablePlan.Remove]
    split
    · exact ⟨by show i < p.size; omega, rfl⟩
    · simp only [Plan.Remove]
      split
      · exact ⟨by show i < p.size - 1; omega, rfl⟩
      · exact ⟨by show i < p.size; omega, rfl⟩
  | Replace index formula =>
    simp only [step, ExecutablePlan.Replace, Plan.Replace]
    split
    · exact ⟨by show i < p.size; omega, rfl⟩
    · split
      · exact ⟨by show i < p.size; omega, rfl⟩
      · refine ⟨by show i < p.size; omega, ?_⟩
        show readAt (writeAt p.formulas index formula) i = readAt p.formulas i
        exact readAt_writeAt_other _ _ _ _ (by omega)
  | Apply inputStockpile chance =>
    simp only [step, ExecutablePlan.Apply]
    split
    · exact ⟨by show i < p.size; omega, rfl⟩
    · split
      · exact ⟨by show i < p.size; omega, rfl⟩
      · exact ⟨by show i < p.size; omega, rfl⟩
  | ApplyCurrentFormula chance =>
    simp only [step, ExecutablePlan.ApplyCurrentFormula]
    split
    · exact ⟨by show i < p.size; omega, rfl⟩
    · exact ⟨by show i < p.size; omega, rfl⟩
  | incr => exact ⟨by show i < p.size; omega, rfl⟩

/-- Witness of C24: the two-recipe plan of simulator.cpp after one executed step; index 0
keeps its recipe under an `Add` that reallocates the array and under a `Replace` aimed at
index 0. -/
theorem completed_steps_kept_witness :
    readAt (step (step (ExecutablePlan.new [glucoseFormula, oxygenFormula])
        (.ApplyCurrentFormula 60)) (.Add thirstyFormula)).formulas 0 = glucoseFormula
      ∧ readAt (step (step (ExecutablePlan.new [glucoseFormula, oxygenFormula])
        (.ApplyCurrentFormula 60)) (.Replace 0 thirstyFormula)).formulas 0 = glucoseFormula
      ∧ 0 < (step (step (ExecutablePlan.new [glucoseFormula, oxygenFormula])
        (.ApplyCurrentFormula 60)) .Remove).size :=
  ⟨(completed_steps_kept
      (step (ExecutablePlan.new [glucoseFormula, oxygenFormula]) (.ApplyCurrentFormula 60))
      (.Add thirstyFormula) 0 ⟨by decide, by decide, by decide⟩ ⟨by decide, by decide⟩
      (by decide) (by decide)).2,
    (completed_steps_kept
      (step (ExecutablePlan.new [glucoseFormula, oxygenFormula]) (.ApplyCurrentFormula 60))
      (.Replace 0 thirstyFormula) 0 ⟨by decide, by decide, by decide⟩ ⟨by decide, by decide⟩
      (by decide) (by decide)).2,
    (completed_steps_kept
      (step (ExecutablePlan.new [glucoseFormula, oxygenFormula]) (.ApplyCurrentFormula 60))
      .Remove 0 ⟨by decide, by decide, by decide⟩ ⟨by decide, by decide⟩
      (by decide) (by decide)).1⟩

/-! Formula accessors -/

/-- C25: `GetInputName(i)` and `GetInputQuantity(i)` return a value for every integer `i`
(they have no throwing path): the stored name and quantity when `0 <= i < inputSize`, the
sentinels "" and 0 otherwise; `GetOutput(index)` throws the out-of-range error exactly when
`index` is outside `[0, outputSize)` and otherwise returns "<name>: <quantity>" of that
output. -/
theorem accessor_policy (f : Formula) (i : Int) :
    (0 ≤ i → i < f.inputSize →
        ∃ c, f.inputs[i.toNat]? = some c
          ∧ f.GetInputName i = c.1 ∧ f.GetInputQuantity i = c.2)
      ∧ ((i < 0 ∨ i ≥ f.inputSize) → f.GetInputName i = "" ∧ f.GetInputQuantity i = 0)
      ∧ ((∃ e, f.GetOutput i = .error e) ↔ (i < 0 ∨ i ≥ f.outputSize))
      ∧ ((i < 0 ∨ i ≥ f.outputSize) →
          f.GetOutput i = .error (.out_of_range "Index out of range"))
      ∧ (0 ≤ i → i < f.outputSize →
          ∃ c, f.outputs[i.toNat]? = some c
            ∧ f.GetOutput i = .ok (c.1 ++ ": " ++ toString c.2)) := by
  refine ⟨?_, ?_, ?_, ?_, ?_⟩
  · intro h0 hlt
    have hn : i.toNat < f.inputs.length := by
      unfold Formula.inputSize at hlt; omega
    refine ⟨f.inputs[i.toNat], List.getElem?_eq_getElem hn, ?_, ?_⟩
    · simp [Formula.GetInputName, h0, hlt, List.getD_eq_getElem?_getD,
        List.getElem?_eq_getElem hn]
    · simp [Formula.GetInputQuantity, h0, hlt, List.getD_eq_getElem?_getD,
        List.getElem?_eq_getElem hn]
  · intro hout
    have hno : ¬ (0 ≤ i ∧ i < f.inputSize) := by omega
    simp [Formula.GetInputName, Formula.GetInputQuantity, hno]
  · unfold Formula.GetOutput
    by_cases hout : i < 0 ∨ i ≥ f.outputSize
    · rw [if_pos hout]
      exact ⟨fun _ => hout, fun _ => ⟨_, rfl⟩⟩
    · rw [if_neg hout]
      exact ⟨fun h => (by obtain ⟨e, he⟩ := h; cases he), fun h => absurd h hout⟩
  · intro hout
    simp [Formula.GetOutput, hout]
  · intro h0 hlt
    have hn : i.toNat < f.outputs.length := by
      unfold Formula.outputSize at hlt; omega
    have hno : ¬ (i < 0 ∨ i ≥ f.outputSize) := by omega
    refine ⟨f.outputs[i.toNat], List.getElem?_eq_getElem hn, ?_⟩
    unfold Formula.GetOutput
    rw [if_neg hno]
    simp [List.getD_eq_getElem?_getD, List.getElem?_eq_getElem hn, String.append_assoc]

/-! Formula::DetermineMultiplier -/

/-- `DetermineMultiplier` in terms of the three rates. -/
theorem Formula.DetermineMultiplier_rates (f : Formula) (chance : Int) :
    f.DetermineMultiplier chance
      = if chance < f.failureRate then Formula.ZeroOutputMultiplier
        else if chance < f.failureRate + f.partialRate then Formula.ReducedOutputMultiplier
        else if chance < f.failureRate + f.partialRate + f.normalRate then
          Formula.StandardOutputMultiplier
        else Formula.EnhancedOutputMultiplier := rfl

/-- The three rates, as the double arithmetic of `DetermineMultiplier` cut to `int` gives
them, level by level over the documented range. -/
theorem Formula.rates_by_level (f : Formula) :
    (f.proficiencyLevel = 0 → f.failureRate = 30 ∧ f.partialRate = 25 ∧ f.normalRate = 45)
      ∧ (f.proficiencyLevel = 1 →
          f.failureRate = 25 ∧ f.partialRate = 20 ∧ f.normalRate = 50)
      ∧ (f.proficiencyLevel = 2 →
          f.failureRate = 20 ∧ f.partialRate = 15 ∧ f.normalRate = 55)
      ∧ (f.proficiencyLevel = 3 →
          f.failureRate = 14 ∧ f.partialRate = 9 ∧ f.normalRate = 60)
      ∧ (f.proficiencyLevel = 4 →
          f.failureRate = 10 ∧ f.partialRate = 5 ∧ f.normalRate = 65)
      ∧ (f.proficiencyLevel = 5 →
          f.failureRate = 5 ∧ f.partialRate = 0 ∧ f.normalRate = 70)
      ∧ (f.proficiencyLevel = 6 →
          f.failureRate = 0 ∧ f.partialRate = -5 ∧ f.normalRate = 75) := by
  unfold Formula.failureRate Formula.partialRate Formula.normalRate
  refine ⟨?_, ?_, ?_, ?_, ?_, ?_, ?_⟩ <;> intro h <;> rw [h] <;> decide

theorem Formula.DetermineMultiplier_level_zero (f : Formula) (hp : f.proficiencyLevel = 0)
    (chance : Int) :
    f.DetermineMultiplier chance
      = if chance < 30 then Formula.ZeroOutputMultiplier
        else if chance < 55 then Formula.ReducedOutputMultiplier
        else if chance < 100 then Formula.StandardOutputMultiplier
        else Formula.EnhancedOutputMultiplier := by
  obtain ⟨hF, hP, hN⟩ := (Formula.rates_by_level f).1 hp
  rw [Formula.DetermineMultiplier_rates, hF, hP, hN]
  rfl

/-- C28: every recipe made by a constructor has proficiency 0, and at proficiency 0 the 101
integer draws 0..100 split as follows: the 30 draws 0..29 give multiplier 0, the 25 draws
30..54 give 0.75, the 45 draws 55..99 give 1.0 and the single draw 100 gives 1.10, while the
three rates 30, 25 and 45 already add up to 100. -/
theorem draws_at_level_zero (f : Formula) (hp : f.proficiencyLevel = 0) :
    (∀ chance : Int, 0 ≤ chance → chance ≤ 100 →
        (f.DetermineMultiplier chance = Formula.ZeroOutputMultiplier ↔ chance ≤ 29)
          ∧ (f.DetermineMultiplier chance = Formula.ReducedOutputMultiplier
              ↔ (30 ≤ chance ∧ chance ≤ 54))
          ∧ (f.DetermineMultiplier chance = Formula.StandardOutputMultiplier
              ↔ (55 ≤ chance ∧ chance ≤ 99))
          ∧ (f.DetermineMultiplier chance = Formula.EnhancedOutputMultiplier ↔ chance = 100))
      ∧ ((List.range 101).filter (fun c : Nat =>
            decide (f.DetermineMultiplier c = Formula.ZeroOutputMultiplier))).length = 30
      ∧ ((List.range 101).filter (fun c : Nat =>
            decide (f.DetermineMultiplier c = Formula.ReducedOutputMultiplier))).length = 25
      ∧ ((List.range 101).filter (fun c : Nat =>
            decide (f.DetermineMultiplier c = Formula.StandardOutputMultiplier))).length = 45
      ∧ ((List.range 101).filter (fun c : Nat =>
            decide (f.DetermineMultiplier c = Formula.EnhancedOutputMultiplier))).length = 1
      ∧ f.failureRate + f.partialRate + f.normalRate = 100
      ∧ (∀ (inputs outputs : List (String × Int)) (g : Formula),
          Formula.new inputs outputs = .ok g → g.proficiencyLevel = 0)
      ∧ (default : Formula).proficiencyLevel = 0 := by
  have hdm := Formula.DetermineMultiplier_level_zero f hp
  refine ⟨?_, ?_, ?_, ?_, ?_, ?_, ?_, rfl⟩
  · intro chance h0 h100
    rw [hdm chance]
    refine ⟨?_, ?_, ?_, ?_⟩ <;> split_ifs <;> constructor <;> intro h <;>
      first
        | omega
        | rfl
        | exact absurd h (by decide)
  · simp only [hdm]; decide
  · simp only [hdm]; decide
  · simp only [hdm]; decide
  · simp only [hdm]; decide
  · obtain ⟨hF, hP, hN⟩ := (Formula.rates_by_level f).1 hp
    rw [hF, hP, hN]
    rfl
  · intro inputs outputs g hg
    unfold Formula.new at hg
    split at hg
    · cases hg
    · split at hg
      · cases hg
      · injection hg with hg
        rw [← hg]

/-- Witness of C28: the first recipe of simulator.cpp under the draws 29, 54, 99 and 100. -/
theorem draws_at_level_zero_witness :
    glucoseFormula.DetermineMultiplier 29 = Formula.ZeroOutputMultiplier
      ∧ glucoseFormula.DetermineMultiplier 54 = Formula.ReducedOutputMultiplier
      ∧ glucoseFormula.DetermineMultiplier 99 = Formula.StandardOutputMultiplier
      ∧ glucoseFormula.DetermineMultiplier 100 = Formula.EnhancedOutputMultiplier
      ∧ ((List.range 101).filter (fun c : Nat =>
            decide (glucoseFormula.DetermineMultiplier c
              = Formula.EnhancedOutputMultiplier))).length = 1 :=
  have h := draws_at_level_zero glucoseFormula rfl
  ⟨((h.1 29 (by decide) (by decide)).1).2 (by decide),
    ((h.1 54 (by decide) (by decide)).2.1).2 (by decide),
    ((h.1 99 (by decide) (by decide)).2.2.1).2 (by decide),
    ((h.1 100 (by decide) (by decide)).2.2.2).2 rfl,
    h.2.2.2.2.1⟩

/-! Cursor bound, operation by operation; the exhausted plan -/

/-- C29: on a plan with `0 <= cursor <= count`, each of `Add`, `Remove`, `Replace`, `Apply`
(with any ledger) and `ApplyCurrentFormula`, whether it returns normally or throws, leaves a
plan with `0 <= cursor <= count` whose cursor is not smaller than before; `Remove` lowers the
count only while it is above the cursor, so it can make the plan exhausted but not push the
count below the cursor. -/
theorem operations_keep_cursor_bound (p : ExecutablePlan)
    (hinv : 0 ≤ p._currentStep ∧ p._currentStep ≤ p.size) :
    (∀ formula : Formula,
        0 ≤ (p.Add formula)._currentStep ∧ (p.Add formula)._currentStep ≤ (p.Add formula).size
          ∧ p._currentStep ≤ (p.Add formula)._currentStep)
      ∧ (0 ≤ p.Remove.state._currentStep ∧ p.Remove.state._currentStep ≤ p.Remove.state.size
          ∧ p._currentStep ≤ p.Remove.state._currentStep)
      ∧ (∀ (index : Int) (formula : Formula),
          0 ≤ (p.Replace index formula).state._currentStep
            ∧ (p.Replace index formula).state._currentStep ≤ (p.Replace index formula).state.size
            ∧ p._currentStep ≤ (p.Replace index formula).state._currentStep)
      ∧ (∀ (s : Stockpile) (chance : Int),
          0 ≤ (p.Apply s chance).state.1._currentStep
            ∧ (p.Apply s chance).state.1._currentStep ≤ (p.Apply s chance).state.1.size
            ∧ p._currentStep ≤ (p.Apply s chance).state.1._currentStep)
      ∧ (∀ chance : Int,
          0 ≤ (p.ApplyCurrentFormula chance).state._currentStep
            ∧ (p.ApplyCurrentFormula chance).state._currentStep
                ≤ (p.ApplyCurrentFormula chance).state.size
            ∧ p._currentStep ≤ (p.ApplyCurrentFormula chance).state._currentStep) := by
  obtain ⟨h0, h1⟩ := hinv
  refine ⟨fun formula => ?_, ?_, fun index formula => ?_, fun s chance => ?_, fun chance => ?_⟩
  · have hs : (p.Add formula).size = p.size + 1 := Plan.Add_size p.toPlan formula
    have hc : (p.Add formula)._currentStep = p._currentStep := rfl
    omega
  · unfold ExecutablePlan.Remove
    split
    · exact ⟨h0, h1, le_refl _⟩
    · next hlt =>
      have hpos : p.size > 0 := by omega
      have hs : p.toPlan.Remove.size = p.size - 1 := by simp [Plan.Remove, hpos]
      refine ⟨h0, ?_, le_refl _⟩
      show p._currentStep ≤ p.toPlan.Remove.size
      omega
  · unfold ExecutablePlan.Replace
    split
    · exact ⟨h0, h1, le_refl _⟩
    · have hs : (p.toPlan.Replace index formula).state.size = p.size := by
        unfold Plan.Replace
        split <;> rfl
      refine ⟨h0, ?_, le_refl _⟩
      show p._currentStep ≤ (p.toPlan.Replace index formula).state.size
      omega
  · simp only [ExecutablePlan.Apply]
    split
    · exact ⟨h0, h1, le_refl _⟩
    · split
      · exact ⟨h0, h1, le_refl _⟩
      · refine ⟨?_, ?_, ?_⟩
        · show 0 ≤ p._currentStep + 1
          omega
        · show p._currentStep + 1 ≤ p.size
          omega
        · show p._currentStep ≤ p._currentStep + 1
          omega
  · unfold ExecutablePlan.ApplyCurrentFormula
    split
    · exact ⟨h0, h1, le_refl _⟩
    · refine ⟨?_, ?_, ?_⟩
      · show 0 ≤ p._currentStep + 1
        omega
      · show p._currentStep + 1 ≤ p.size
        omega
      · show p._currentStep ≤ p._currentStep + 1
        omega

/-- Witness of C29: the two-recipe plan of simulator.cpp after one executed step (cursor 1,
count 2); `Remove` makes it exhausted, cursor 1 = count 1. -/
theorem operations_keep_cursor_bound_witness :
    (step (ExecutablePlan.new [glucoseFormula, oxygenFormula])
        (.ApplyCurrentFormula 60)).Remove.state._currentStep
        ≤ (step (ExecutablePlan.new [glucoseFormula, oxygenFormula])
          (.ApplyCurrentFormula 60)).Remove.state.size
      ∧ (step (ExecutablePlan.new [glucoseFormula, oxygenFormula])
          (.ApplyCurrentFormula 60)).Remove.state._currentStep = 1
      ∧ (step (ExecutablePlan.new [glucoseFormula, oxygenFormula])
          (.ApplyCurrentFormula 60)).Remove.state.size = 1 :=
  ⟨(operations_keep_cursor_bound
      (step (ExecutablePlan.new [glucoseFormula, oxygenFormula]) (.ApplyCurrentFormula 60))
      ⟨by decide, by decide⟩).2.1.2.1,
    by decide, by decide⟩

/-- C30: on an exhausted plan (cursor = count), `Apply` with any ledger,
`ApplyCurrentFormula`, `Remove` and `Replace` with any index and recipe all throw and leave
the plan, and for `Apply` the ledger, as they were; `Add` and prefix increment do change an
exhausted plan (the count, respectively the cursor, grows by 1). -/
theorem exhausted_plan_frozen (p : ExecutablePlan) (hex : p._currentStep = p.size) :
    (∀ (s : Stockpile) (chance : Int),
        (p.Apply s chance).succeeded = false ∧ (p.Apply s chance).state = (p, s))
      ∧ (∀ chance : Int,
          (p.ApplyCurrentFormula chance).succeeded = false
            ∧ (p.ApplyCurrentFormula chance).state = p)
      ∧ (p.Remove.succeeded = false ∧ p.Remove.state = p)
      ∧ (∀ (index : Int) (formula : Formula),
          (p.Replace index formula).succeeded = false ∧ (p.Replace index formula).state = p)
      ∧ (∀ formula : Formula, (p.Add formula).size = p.size + 1)
      ∧ p.incr._currentStep = p._currentStep + 1 := by
  have hge : p._currentStep ≥ p.size := by omega
  refine ⟨fun s chance => ?_, fun chance => ?_, ?_, fun index formula => ?_,
    fun formula => Plan.Add_size p.toPlan formula, rfl⟩
  · simp [ExecutablePlan.Apply, Outcome.succeeded, hge]
  · simp [ExecutablePlan.ApplyCurrentFormula, Outcome.succeeded, hge]
  · simp [ExecutablePlan.Remove, Outcome.succeeded, hge]
  · by_cases hlt : index < p._currentStep
    · simp [ExecutablePlan.Replace, Outcome.succeeded, hlt]
    · have hout : index < 0 ∨ index ≥ p.size := Or.inr (by omega)
      simp [ExecutablePlan.Replace, Plan.Replace, Outcome.succeeded, hlt, hout]

/-- Witness of C30: the one-recipe plan after its step has been executed, on a ledger that
holds what the recipe needs. -/
theorem exhausted_plan_frozen_witness :
    ((step (ExecutablePlan.new [glucoseFormula]) (.ApplyCurrentFormula 60)).Apply
        glucoseLedger 60).succeeded = false
      ∧ ((step (ExecutablePlan.new [glucoseFormula]) (.ApplyCurrentFormula 60)).Replace
          0 oxygenFormula).succeeded = false
      ∧ ((step (ExecutablePlan.new [glucoseFormula]) (.ApplyCurrentFormula 60)).Replace
          1 oxygenFormula).succeeded = false
      ∧ (step (ExecutablePlan.new [glucoseFormula]) (.ApplyCurrentFormula 60)).Remove.succeeded
          = false :=
  have h := exhausted_plan_frozen
    (step (ExecutablePlan.new [glucoseFormula]) (.ApplyCurrentFormula 60)) (by decide)
  ⟨(h.1 glucoseLedger 60).1, (h.2.2.2.1 0 oxygenFormula).1, (h.2.2.2.1 1 oxygenFormula).1,
    h.2.2.1.1⟩

/-! Apply credits no output -/

/-- One `ConsumeResource` call with a non-negative quantity raises no quantity and creates
no entry. -/
theorem Stockpile.consume_no_credit (s : Stockpile) (name : String) (quantity : Int)
    (hq : 0 ≤ quantity) (n : String) :
    (s.ConsumeResource name quantity).2.GetQuantity n ≤ s.GetQuantity n
      ∧ (s.resources n = none → (s.ConsumeResource name quantity).2.resources n = none) := by
  by_cases hn : n = name
  · subst hn
    refine ⟨?_, Stockpile.consume_resources_same s n quantity⟩
    cases hflag : (s.ConsumeResource n quantity).1 with
    | false => rw [Stockpile.consume_refused s n quantity hflag]
    | true =>
      have hf : fitsInt (s.GetQuantity n - quantity) := by
        have h := Stockpile.consumeFits_of_nonneg s n quantity hq
        unfold Stockpile.consumeFits at h
        simpa [hflag] using h
      rw [Stockpile.consume_same_of_fits s n quantity hflag hf]
      omega
  · refine ⟨le_of_eq (Stockpile.consume_other s name quantity n hn), fun h => ?_⟩
    rw [Stockpile.consume_resources_other s name quantity n hn]
    exact h

/-- The deduction loop over input cells with non-negative quantities raises no quantity and
creates no entry. -/
theorem deduct_no_credit (l : List (String × Int)) (s : Stockpile)
    (hvalid : ∀ c ∈ l, 0 ≤ c.2) (n : String) :
    (l.foldl (fun (s : Stockpile) c => (s.ConsumeResource c.1 c.2).2) s).GetQuantity n
        ≤ s.GetQuantity n
      ∧ (s.resources n = none →
          (l.foldl (fun (s : Stockpile) c => (s.ConsumeResource c.1 c.2).2) s).resources n
            = none) := by
  induction l generalizing s with
  | nil => exact ⟨le_refl _, fun h => h⟩
  | cons c t ih =>
    simp only [List.foldl_cons]
    have h1 := Stockpile.consume_no_credit s c.1 c.2 (hvalid c (List.mem_cons_self _ _)) n
    have h2 := ih (s.ConsumeResource c.1 c.2).2
      (fun d hd => hvalid d (List.mem_cons_of_mem _ hd))
    exact ⟨le_trans h2.1 h1.1, fun h => h2.2 (h1.2 h)⟩

/-- C31: whenever `Apply` returns normally on a recipe whose input quantities are
non-negative (as for every constructed recipe), for every resource name `n`, the output names
of the recipe included, `GetQuantity(n)` afterwards is at most `GetQuantity(n)` before, a
name without an entry before has no entry afterwards (its quantity is 0), and the outputs
appear only as the one text appended to the result log. -/
theorem apply_credits_no_output (p : ExecutablePlan) (s r : Stockpile) (chance : Int)
    (hok : (p.Apply s chance).result = .ok r)
    (hvalid : ∀ c ∈ (readAt p.formulas p._currentStep).inputs, 0 ≤ c.2) :
    (∀ n, (p.Apply s chance).state.2.GetQuantity n ≤ s.GetQuantity n)
      ∧ (∀ n, s.resources n = none →
          (p.Apply s chance).state.2.resources n = none
            ∧ (p.Apply s chance).state.2.GetQuantity n = 0)
      ∧ (∀ c ∈ (readAt p.formulas p._currentStep).outputs,
          (p.Apply s chance).state.2.GetQuantity c.1 ≤ s.GetQuantity c.1)
      ∧ (p.Apply s chance).state.2.applyResults
          = s.applyResults ++ [(readAt p.formulas p._currentStep).Apply chance] := by
  by_cases hex : p._currentStep ≥ p.size
  · simp [ExecutablePlan.Apply, hex] at hok
  · cases hav : ExecutablePlan.resourcesAvailable (readAt p.formulas p._currentStep) s with
    | false => simp [ExecutablePlan.Apply, hex, hav] at hok
    | true =>
      have hst : (p.Apply s chance).state.2
          = (ExecutablePlan.deductResources (readAt p.formulas p._currentStep)
              s).StoreFormulaResult ((readAt p.formulas p._currentStep).Apply chance) := by
        simp [ExecutablePlan.Apply, hex, hav]
      have hq : ∀ n, (p.Apply s chance).state.2.GetQuantity n ≤ s.GetQuantity n := by
        intro n
        rw [hst, ExecutablePlan.deductResources_eq]
        exact (deduct_no_credit _ s hvalid n).1
      have hnone : ∀ n, s.resources n = none →
          (p.Apply s chance).state.2.resources n = none := by
        intro n hn
        rw [hst, ExecutablePlan.deductResources_eq]
        exact (deduct_no_credit _ s hvalid n).2 hn
      refine ⟨hq, fun n hn => ⟨hnone n hn, ?_⟩, fun c _ => hq c.1, ?_⟩
      · simp [Stockpile.GetQuantity, hnone n hn]
      · rw [hst]
        simp [Stockpile.StoreFormulaResult, ExecutablePlan.deductResources_applyResults]

/-- Witness of C31: the first step of the two-recipe plan of simulator.cpp; the output name
Glucose has no entry before and none afterwards, Water goes from 2 to 0, and the log holds
"1 Glucose". -/
theorem apply_credits_no_output_witness :
    (((ExecutablePlan.new [glucoseFormula, oxygenFormula]).Apply glucoseLedger 60).state.2).GetQuantity
        "Glucose" = 0
      ∧ (((ExecutablePlan.new [glucoseFormula, oxygenFormula]).Apply glucoseLedger 60).state.2).GetQuantity
        "Water" ≤ glucoseLedger.GetQuantity "Water"
      ∧ (((ExecutablePlan.new [glucoseFormula, oxygenFormula]).Apply glucoseLedger 60).state.2).GetQuantity
        "Water" = 0
      ∧ (((ExecutablePlan.new [glucoseFormula, oxygenFormula]).Apply glucoseLedger 60).state.2).applyResults
        = [] ++ ["1 Glucose"] :=
  have h := apply_credits_no_output (ExecutablePlan.new [glucoseFormula, oxygenFormula])
    glucoseLedger
    (((ExecutablePlan.new [glucoseFormula, oxygenFormula]).Apply glucoseLedger 60).state.2)
    60 (by rfl) (by decide)
  ⟨(h.2.1 "Glucose" (by decide)).2, h.1 "Water", by decide, h.2.2.2⟩

end RTS
